import Mathlib

set_option maxRecDepth 4000

/-!
Verification of the `lsys` Lindenmayer-system package.

The Python sources are shallowly embedded:
* strings are `List Char`;
* machine floats are modelled by `ℝ` (exact real arithmetic);
* `MemoryError` / `ValueError` / stack underflow become `Except` / `Option`;
* the pseudorandom generator consumed by `algo.add_noise` is modelled by an
  oracle stream `draws : ℕ → ℝ` together with an explicit cursor, so that the
  number of samples drawn is observable.
-/

/-- `MAX_STRING_SIZE = 5e6` from `lsys/lsys.py`.  The Python comparison
`len(axiom) > 5e6` on an integer length is equivalent to `length > 5000000`. -/
def MAX_STRING_SIZE : ℕ := 5000000

namespace Lsys

/-- One production rule set: an association list from a character to its
replacement (Python `dict` with unique keys, insertion ordered). -/
abbrev Rules := List (Char × List Char)

/-- Lookup of one character in the rule mapping: `rule[c]` when `c in rule`,
otherwise the character itself is kept (the `else` branch of `Lsys.expand`). -/
def applyRule (rule : Rules) (c : Char) : List Char :=
  match rule.find? (fun p => p.1 == c) with
  | some p => p.2
  | none => [c]

/-- One character-by-character rewriting pass of `Lsys.expand`
(`for c in axiom: output += rule[c] if c in rule else c`). -/
def substitute (rule : Rules) : List Char → List Char
  | [] => []
  | c :: cs => applyRule rule c ++ substitute rule cs

/-- `str(i)` for a natural number, as a character list. -/
def natChars (i : ℕ) : List Char := (Nat.repr i).toList

/-- `output.replace(bar, str(i) + ".")` for a single barrier character. -/
def tagBars (bar : Char) (i : ℕ) : List Char → List Char
  | [] => []
  | c :: cs => (if c = bar then natChars i ++ ['.'] else [c]) ++ tagBars bar i cs

/-- `axiom.replace(".", bar)`: the final restoration of the reserved separator
to the bare barrier symbol. -/
def untag (bar : Char) (s : List Char) : List Char :=
  s.map (fun c => if c = '.' then bar else c)

/-- The `while i <= depth` loop of `Lsys.expand`, with `fuel` = number of
remaining iterations (`depth + 1 - i`).  A `MemoryError` is modelled as
`.error i` carrying the depth `i` reported in the exception message
(`"Maximum depth is: {i}"`). -/
def expandFrom (rule : Rules) (bar : Char) (mc : Bool) :
    ℕ → ℕ → List Char → Except ℕ (List Char)
  | 0, _, ax => .ok (untag bar ax)
  | fuel + 1, i, ax =>
    if mc ∧ ax.length > MAX_STRING_SIZE then .error i
    else
      let output := if i = 0 then ax else substitute rule ax
      expandFrom rule bar mc fuel (i + 1) (tagBars bar i output)

/-- `Lsys.expand(axiom, rule, depth, bar, memory_check)` from `lsys/lsys.py`
(lines 454-471).  The barrier is a single character, as in every use in the
repository. -/
def expand (ax : List Char) (rule : Rules) (depth : ℕ)
    (bar : Char := '|') (mc : Bool := true) : Except ℕ (List Char) :=
  expandFrom rule bar mc (depth + 1) 0 ax

/-- The "Dragon" rule set `{X: "X+YF+", Y: "-FX-Y"}`. -/
def dragonRule : Rules := [('X', "X+YF+".toList), ('Y', "-FX-Y".toList)]

/-- The "Dragon" starting string `"FX"`. -/
def dragonAxiom : List Char := "FX".toList

/-- The working string of the Dragon expansion after `k` substitution passes. -/
def dragonIter (k : ℕ) : List Char := (substitute dragonRule)^[k] dragonAxiom

/-- Number of occurrences of `'X'` or `'Y'` in a string (the symbols with a
Dragon production rule). -/
def countXY (s : List Char) : ℕ := s.countP (fun c => c == 'X' || c == 'Y')

/-- The character set of the Dragon grammar. -/
def dragonOK (c : Char) : Bool :=
  c == 'F' || c == 'X' || c == 'Y' || c == '+' || c == '-'

/-- Python substring test `pat in s`. -/
def containsSub (pat : List Char) : List Char → Bool
  | [] => pat.isEmpty
  | c :: cs => pat.isPrefixOf (c :: cs) || containsSub pat cs

/-- Left-to-right scan of `str.replace` with non-overlapping matches of the
pattern `p :: ps`; `fuel` bounds the number of characters still to be
consumed (each step consumes at least one, so `s.length` is enough). -/
def replaceSubAux (p : Char) (ps repl : List Char) : ℕ → List Char → List Char
  | 0, s => s
  | _ + 1, [] => []
  | fuel + 1, c :: cs =>
    if (p :: ps).isPrefixOf (c :: cs) then
      repl ++ replaceSubAux p ps repl fuel (cs.drop ps.length)
    else c :: replaceSubAux p ps repl fuel cs

/-- Python `str.replace(pat, repl)` for a nonempty pattern `p :: ps`. -/
def replaceSub (p : Char) (ps repl s : List Char) : List Char :=
  replaceSubAux p ps repl s.length s

/-- `str.replace` dispatching on the pattern shape (no empty pattern is ever
used by `clean_rule`). -/
def replaceSubstr (pat repl s : List Char) : List Char :=
  match pat with
  | [] => s
  | p :: ps => replaceSub p ps repl s

/-- The key/value separators accepted by `clean_rule`:
`[":", "=", "-->", "->", "=>"]`, in source order. -/
def sepList : List (List Char) := [[':'], ['='], ['-', '-', '>'], ['-', '>'], ['=', '>']]

/-- The rule dividers accepted by `clean_rule`: `[";", ","]`. -/
def divList : List (List Char) := [[';'], [',']]

/-- Python `str.strip`: drop whitespace from the front, then from the back. -/
def strip (s : List Char) : List Char :=
  ((s.dropWhile Char.isWhitespace).reverse.dropWhile Char.isWhitespace).reverse

/-- `x.strip().upper()`, the normalization applied to every key and value in
the `dict` branch of `clean_rule` (ASCII case mapping, which is what Python's
`str.upper` does on every symbol appearing in the repository). -/
def cleanStr (s : List Char) : List Char := (strip s).map Char.toUpper

/-- Python dict assignment `d[k] = v` on an insertion-ordered association
list: overwrite in place when the key exists, else append. -/
def dictInsert (k v : List Char) :
    List (List Char × List Char) → List (List Char × List Char)
  | [] => [(k, v)]
  | p :: rest => if p.1 = k then (p.1, v) :: rest else p :: dictInsert k v rest

/-- The `dict` branch of `Lsys.clean_rule` (lines 391-396):
`{k.strip().upper(): v.strip().upper() for k, v in rule.items()}`. -/
def clean_rule_dict (d : List (List Char × List Char)) : List (List Char × List Char) :=
  d.foldl (fun acc p => dictInsert (cleanStr p.1) (cleanStr p.2) acc) []

/-- The `str` branch of `Lsys.clean_rule` (lines 398-423): uppercase, remove
spaces, rewrite each present separator to `'='` and each present divider to
`','`, split on `','`, then split each piece on `'='` into exactly one key and
one value; `ValueError` is modelled as `.error ()`. -/
def clean_rule_str (s0 : List Char) : Except Unit (List (List Char × List Char)) :=
  let r1 := (s0.map Char.toUpper).filter (fun c => c != ' ')
  if sepList.any (fun sep => containsSub sep r1) then
    let r2 := sepList.foldl
      (fun acc sep => if containsSub sep acc then replaceSubstr sep ['='] acc else acc) r1
    let r3 := divList.foldl
      (fun acc dv => if containsSub dv acc then replaceSubstr dv [','] acc else acc) r2
    (r3.splitOn ',').foldlM (fun acc piece =>
      match piece.splitOn '=' with
      | [k, v] => Except.ok (dictInsert (strip k) (strip v) acc)
      | _ => Except.error ()) []
  else Except.error ()

/-- The argument of `Lsys.clean_rule`: a mapping or a string. -/
inductive RuleInput where
  | dict (d : List (List Char × List Char)) : RuleInput
  | str (s : List Char) : RuleInput

/-- `Lsys.clean_rule(rule)` from `lsys/lsys.py` (lines 368-426). -/
def clean_rule : RuleInput → Except Unit (List (List Char × List Char))
  | RuleInput.dict d => Except.ok (clean_rule_dict d)
  | RuleInput.str s => clean_rule_str s

/-- A character that plays no syntactic role in the separator syntax: not a
separator or divider character, not `'>'`, and not whitespace. -/
def plainChar (c : Char) : Bool :=
  !(c == ':' || c == '=' || c == ';' || c == ',' || c == '>' || c.isWhitespace)

/-- Key/value pairs joined as `"k1<sep>v1<div>k2<sep>v2..."`. -/
def joinKV (sep dv : Char) : List (List Char × List Char) → List Char
  | [] => []
  | [p] => p.1 ++ sep :: p.2
  | p :: rest => p.1 ++ sep :: (p.2 ++ dv :: joinKV sep dv rest)

/-- The separator-syntax string `"k1:v1;k2:v2;..."` denoting a rule mapping. -/
def renderRule (d : List (List Char × List Char)) : List Char := joinKV ':' ';' d

/-- Both components of a pair consist of plain characters only. -/
def plainPair (p : List Char × List Char) : Bool :=
  p.1.all plainChar && p.2.all plainChar

/-- A concrete rule mapping used to instantiate universally quantified
statements about `clean_rule`. -/
def witnessRule : List (List Char × List Char) :=
  [("x".toList, "x+yf+".toList), ("y".toList, "-fx-y".toList)]

end Lsys

/-- `algo.add_noise(num)` from `lsys/algo.py` (lines 6-10): when `num` is
truthy it returns `num * numpy.random.normal(0.0, 0.5)`, else exactly `0`
without touching the random generator.  The generator is modelled by the
oracle `draws` (whose `k`-th value stands for the `k`-th normal sample) and a
cursor `k`, returned updated so that consumption is observable. -/
noncomputable def add_noise (num : ℝ) (draws : ℕ → ℝ) (k : ℕ) : ℝ × ℕ :=
  if num ≠ 0 then (num * draws k, k + 1) else (0, k)

/-- `numpy.radians`: degrees to radians. -/
noncomputable def radians (x : ℝ) : ℝ := x * Real.pi / 180

/-- The snapping tolerance `tol = 1e-9` of `Lsys.compute_coords`. -/
noncomputable def turtle_tol : ℝ := 1 / 1000000000

/-- Emitted coordinates with magnitude at most `tol` are snapped to exactly 0
(`ax = x if abs(x) > tol else 0`). -/
noncomputable def snap (v : ℝ) : ℝ := if |v| > turtle_tol then v else 0

/-- One output element of the turtle: a drawn segment between two points, or
the pen-lift sentinel (the `([nan, nan], [nan, nan])` pair of the source,
which has no counterpart in `ℝ`). -/
inductive Seg where
  | draw (a b : ℝ × ℝ) : Seg
  | lift : Seg

/-- The attributes of the `Lsys` object read by `compute_coords`.  The symbol
roles are single characters, as in every configuration in the repository. -/
structure TConfig where
  a0 : ℝ
  da : ℝ
  step : ℝ
  ds : ℝ
  unoise : ℝ
  depth : ℕ
  forward : Char
  bar : Char
  left : Char
  right : Char
  goto : Char
  ignore : List Char

/-- The mutable state of the `compute_coords` loop: turtle pose, save-stack,
the two output lists, the pending digit accumulator, the present depth, the
(growing) ignore set, the warnings issued so far, and the cursor into the
random stream. -/
structure TState where
  x : ℝ
  y : ℝ
  a : ℝ
  stack : List (ℝ × ℝ × ℝ)
  segs : List Seg
  depths : List ℕ
  num : ℕ
  pres_depth : ℕ
  ignore : List Char
  warnings : List Char
  k : ℕ

/-- The first `if` of the loop body (`c in (forward + bar + goto)`): move the
turtle, emit a drawn segment (or a pen-lift for `goto`), and set `found`. -/
noncomputable def tphase1 (cfg : TConfig) (draws : ℕ → ℝ) (st : TState) (c : Char) :
    TState × Bool :=
  if c = cfg.forward ∨ c = cfg.bar ∨ c = cfg.goto then
    let pres := if c = cfg.bar then st.num else cfg.depth
    let p1 := add_noise cfg.unoise draws st.k
    let s := cfg.step * cfg.ds ^ pres * (p1.1 + 1)
    let p2 := add_noise cfg.unoise draws p1.2
    let sy := st.y + Real.sin (st.a + p2.1) * s
    let p3 := add_noise cfg.unoise draws p2.2
    let sx := st.x + Real.cos (st.a + p3.1) * s
    if c = cfg.goto then
      ({ st with segs := st.segs ++ [Seg.lift],
                 depths := st.depths ++ [pres],
                 x := sx, y := sy, pres_depth := pres, k := p3.2 }, true)
    else
      ({ st with segs := st.segs ++ [Seg.draw (snap st.x, snap st.y) (snap sx, snap sy)],
                 depths := st.depths ++ [pres],
                 x := sx, y := sy, pres_depth := pres, k := p3.2 }, true)
  else (st, false)

/-- The second `if`/`elif` chain of the loop body: turns, bracket push/pop
(pop of an empty stack is the fatal `IndexError`, modelled as `none`),
ignored symbols, and the once-per-symbol warning for unrecognized symbols. -/
noncomputable def tphase2 (cfg : TConfig) (draws : ℕ → ℝ) (c : Char)
    (st1 : TState) (found : Bool) : Option TState :=
  if c = cfg.right ∨ c = cfg.left then
    let n : ℕ := if st1.num = 0 then 1 else st1.num
    let p4 := add_noise cfg.unoise draws st1.k
    if c = cfg.right then
      some { st1 with a := st1.a - radians cfg.da * (n : ℝ) * (p4.1 + 1), k := p4.2 }
    else
      some { st1 with a := st1.a + radians cfg.da * (n : ℝ) * (p4.1 + 1), k := p4.2 }
  else if c = '[' then
    let p5 := add_noise cfg.unoise draws st1.k
    some { st1 with stack := (st1.x, st1.y, st1.a + p5.1 * radians 5) :: st1.stack,
                    k := p5.2 }
  else if c = ']' then
    match st1.stack with
    | [] => none
    | (px, py, pa) :: rest =>
      some { st1 with x := px, y := py, a := pa, stack := rest,
                      segs := st1.segs ++ [Seg.lift],
                      depths := st1.depths ++ [st1.pres_depth] }
  else if c ∈ st1.ignore then some st1
  else if found = false then
    some { st1 with ignore := st1.ignore ++ [c], warnings := st1.warnings ++ [c] }
  else some st1

/-- One iteration of the `for c in string` loop of `Lsys.compute_coords`:
digits accumulate into `num`; any other character runs the two phases and
then resets `num`. -/
noncomputable def tstep (cfg : TConfig) (draws : ℕ → ℝ) (st : TState) (c : Char) :
    Option TState :=
  if c.isDigit then
    some { st with num := st.num * 10 + (c.toNat - 48) }
  else
    let r := tphase1 cfg draws st c
    (tphase2 cfg draws c r.1 r.2).map (fun s2 => { s2 with num := 0 })

/-- Run the loop over the whole string. -/
noncomputable def runT (cfg : TConfig) (draws : ℕ → ℝ) :
    TState → List Char → Option TState
  | st, [] => some st
  | st, c :: cs =>
    match tstep cfg draws st c with
    | none => none
    | some st' => runT cfg draws st' cs

/-- The state at the top of the loop: position `(0, 0)`, heading
`radians(a0)`, empty stack and outputs, `num = 0`, `pres_depth = depth`, the
configured ignore set, no warnings, the random stream unread. -/
noncomputable def initTState (cfg : TConfig) : TState :=
  { x := 0, y := 0, a := radians cfg.a0, stack := [], segs := [], depths := [],
    num := 0, pres_depth := cfg.depth, ignore := cfg.ignore, warnings := [], k := 0 }

namespace Lsys

/-- `Lsys.compute_coords` from `lsys/lsys.py` (lines 493-604), as the final
loop state: `.segs`/`.depths` are the parallel `x_y`/`depths` output lists
(whose equal length the source asserts just before returning), `.warnings`
the symbols warned about, `none` the fatal pop of an empty save-stack. -/
noncomputable def compute_coords (cfg : TConfig) (s : List Char) (draws : ℕ → ℝ) :
    Option TState :=
  runT cfg draws (initTState cfg) s

end Lsys

/-- A turtle configuration with the default symbol assignments, `a0 = 0` and
`unoise = 0`, parameterized by turn increment, step length, scale ratio and
depth. -/
noncomputable def turtleCfg (da step ds : ℝ) (depth : ℕ) : TConfig :=
  { a0 := 0, da := da, step := step, ds := ds, unoise := 0, depth := depth,
    forward := 'F', bar := '|', left := '-', right := '+', goto := 'G', ignore := [] }

/-- A concrete noise-free configuration for instantiating universally
quantified statements about `compute_coords`. -/
noncomputable def cfgNoNoise : TConfig := turtleCfg 90 1 1 0

/-- The all-zero random stream. -/
noncomputable def drawsZero : ℕ → ℝ := fun _ => 0

/-- The all-one random stream. -/
noncomputable def drawsOne : ℕ → ℝ := fun _ => 1

/-- The final state of interpreting `"ZZ"` (two unrecognized symbols) under
the noise-free default configuration. -/
noncomputable def stZZ : TState :=
  (Lsys.compute_coords cfgNoNoise ("ZZ".toList) drawsZero).getD (initTState cfgNoNoise)

/-- `bezier.ctrl_pts(p0, p1, w)`: the point `p0 + (p1 - p0) * w` along the
vector from `p0` to `p1`. -/
def ctrl_pts (p0 p1 : ℝ × ℝ) (w : ℝ) : ℝ × ℝ :=
  (p0.1 + (p1.1 - p0.1) * w, p0.2 + (p1.2 - p0.2) * w)

/-- `bezier.binomial(n, k)`: the source tabulates Pascal's triangle rows and
returns the `k`-th entry of row `n`; `Nat.choose` satisfies exactly that
recurrence with the same boundary entries. -/
def binomial (n k : ℕ) : ℕ := n.choose k

/-- `bezier.poly(n, k)(t)`: the Bernstein basis term
`binomial(n,k) * (1-t)^(n-k) * t^k`. -/
def poly (n k : ℕ) (t : ℝ) : ℝ := (binomial n k : ℝ) * (1 - t) ^ (n - k) * t ^ k

/-- `bezier.bezier(points, segs)`: the curve sampled at the `segs + 1`
parameter values `j / segs` of `numpy.linspace(0, 1, segs + 1)` (for
`segs = 0` the single sample is `t = 0`, matching `linspace(0, 1, 1)`), each
sample the Bernstein-weighted sum of the control points. -/
noncomputable def bezier (points : List (ℝ × ℝ)) (segs : ℕ) : List (ℝ × ℝ) :=
  let n := points.length
  (List.range (segs + 1)).map (fun j =>
    let t : ℝ := (j : ℝ) / (segs : ℝ)
    points.enum.foldl (fun acc ip =>
      (acc.1 + poly (n - 1) ip.1 t * ip.2.1, acc.2 + poly (n - 1) ip.1 t * ip.2.2))
      (0, 0))

/-- `radial_dist - r` for every sampled curve point: the signed deviation
`sqrt(sum((t - [0, kc])**2, axis=1)) - r` of `gen_new_guess`. -/
noncomputable def radial_errors (curve : List (ℝ × ℝ)) (kc r : ℝ) : List ℝ :=
  curve.map (fun p => Real.sqrt ((p.1 - 0) ^ 2 + (p.2 - kc) ^ 2) - r)

/-- `numpy.ndarray.max()` of a nonempty list (0 on the empty list, which the
source never produces since a curve has `segs + 1 ≥ 1` samples). -/
noncomputable def maxList : List ℝ → ℝ
  | [] => 0
  | x :: xs => xs.foldl max x

/-- `numpy.ndarray.min()` of a nonempty list. -/
noncomputable def minList : List ℝ → ℝ
  | [] => 0
  | x :: xs => xs.foldl min x

/-- The tuple yielded by one iteration of `bezier.gen_new_guess`. -/
structure GuessStep where
  guess : ℝ
  error_np : List ℝ
  error : ℝ
  a : ℝ
  b : ℝ

/-- One `yield` of `bezier.gen_new_guess` (lines 287-302): build the cubic
curve for the current `guess`, compute the signed radial deviations, and set
`error = abs(error_np.max()) - abs(error_np.min())`. -/
noncomputable def gen_new_guess_yield (pt0 pt2 ptm : ℝ × ℝ) (kc r : ℝ) (segs : ℕ)
    (guess a b : ℝ) : GuessStep :=
  let pc1 := ctrl_pts pt0 ptm guess
  let pc2 := ctrl_pts pt2 ptm guess
  let t := bezier [pt0, pc1, pc2, pt2] segs
  let error_np := radial_errors t kc r
  ⟨guess, error_np, |maxList error_np| - |minList error_np|, a, b⟩

/-- The post-yield update of `bezier.gen_new_guess` (lines 304-308):
`if error > 0: a = guess else: b = guess; guess = (a + b) / 2`, returned as
`(guess, a, b)`. -/
noncomputable def gen_new_guess_update (y : GuessStep) : ℝ × ℝ × ℝ :=
  if y.error > 0 then ((y.guess + y.b) / 2, y.guess, y.b)
  else ((y.a + y.guess) / 2, y.a, y.guess)

/-- The `for i in range(max_iters)` loop of `bezier.find_circular_weight`
(lines 278-284), with `fuel` the remaining iterations: draw the next yield;
return it (with the current index) when its error lies strictly within
`±tol` or when the budget is exhausted; otherwise advance the bisection
state.  `fuel = 0` is unreachable from a positive budget. -/
noncomputable def fcw_loop (pt0 pt2 ptm : ℝ × ℝ) (kc r : ℝ) (segs : ℕ) (tol : ℝ) :
    ℝ → ℝ → ℝ → ℕ → ℕ → ℝ × List ℝ × ℝ × ℕ
  | guess, _, _, i, 0 => (guess, [], 0, i)
  | guess, a, b, i, fuel + 1 =>
    let y := gen_new_guess_yield pt0 pt2 ptm kc r segs guess a b
    if (-tol < y.error ∧ y.error < tol) ∨ fuel = 0 then (y.guess, y.error_np, y.error, i)
    else
      let s := gen_new_guess_update y
      fcw_loop pt0 pt2 ptm kc r segs tol s.1 s.2.1 s.2.2 (i + 1) fuel

/-- `bezier.find_circular_weight(angle, guess, tol, max_iters, r, segs)`
(lines 200-284): validate the open-interval bounds on `angle` and `guess`
(`ValueError` modelled as `.error ()`), set up the circle geometry, and run
the bisection loop from bounds `a = 1` (upper) and `b = 0` (lower). -/
noncomputable def find_circular_weight (angle guess tol : ℝ) (max_iters : ℕ)
    (r : ℝ) (segs : ℕ) : Except Unit (ℝ × List ℝ × ℝ × ℕ) :=
  if ¬(0 < angle ∧ angle < 180) then Except.error ()
  else if ¬(0 < guess ∧ guess < 1) then Except.error ()
  else
    let deg := (180 - angle) / 2
    let th := deg * Real.pi / 180
    let h := r * Real.cos th / Real.tan th
    let kc := -h * Real.tan th * Real.tan th
    let xc := h * Real.tan th
    Except.ok (fcw_loop (-xc, 0) (xc, 0) (0, h) kc r segs tol guess 1 0 0 max_iters)

/-- Modelled from the spec's words, for comparison with the source: the
error metric the spec describes, `max(|radial distance − radius|) −
min(|radial distance − radius|)` over the sampled curve points. -/
noncomputable def spec_error_metric (errs : List ℝ) : ℝ :=
  maxList (errs.map (fun e => |e|)) - minList (errs.map (fun e => |e|))

namespace Lsys

theorem applyRule_not_mem {rule : Rules} {c : Char}
    (h : ∀ p ∈ rule, p.1 ≠ c) : applyRule rule c = [c] := by
  unfold applyRule
  rw [List.find?_eq_none.mpr]
  intro p hp
  simpa using h p hp

theorem length_substitute_dragon (s : List Char) :
    (substitute dragonRule s).length = s.length + 4 * countXY s := by
  induction s with
  | nil => simp [substitute, countXY]
  | cons c cs ih =>
    show (applyRule dragonRule c ++ substitute dragonRule cs).length = _
    rw [List.length_append, ih]
    unfold countXY
    rw [List.countP_cons]
    by_cases hx : c = 'X'
    · subst hx
      simp [applyRule, dragonRule, List.find?]
      omega
    · by_cases hy : c = 'Y'
      · subst hy
        simp [applyRule, dragonRule, List.find?]
        omega
      · rw [applyRule_not_mem]
        · simp [countXY, hx, hy]
          omega
        · intro p hp
          simp only [dragonRule, List.mem_cons, List.mem_singleton] at hp
          rcases hp with h | h | h
          · subst h; simpa using Ne.symm hx
          · subst h; simpa using Ne.symm hy
          · simp at h

theorem countXY_substitute_dragon (s : List Char) :
    countXY (substitute dragonRule s) = 2 * countXY s := by
  induction s with
  | nil => simp [substitute, countXY]
  | cons c cs ih =>
    show countXY (applyRule dragonRule c ++ substitute dragonRule cs) = _
    unfold countXY at ih ⊢
    rw [List.countP_append, ih, List.countP_cons]
    by_cases hx : c = 'X'
    · subst hx
      simp [applyRule, dragonRule, List.find?]
      omega
    · by_cases hy : c = 'Y'
      · subst hy
        simp [applyRule, dragonRule, List.find?]
        omega
      · rw [applyRule_not_mem]
        · simp [hx, hy]
        · intro p hp
          simp only [dragonRule, List.mem_cons, List.mem_singleton] at hp
          rcases hp with h | h | h
          · subst h; simpa using Ne.symm hx
          · subst h; simpa using Ne.symm hy
          · simp at h

theorem all_dragonOK_substitute {s : List Char}
    (h : s.all dragonOK = true) : (substitute dragonRule s).all dragonOK = true := by
  induction s with
  | nil => simp [substitute]
  | cons c cs ih =>
    rw [List.all_cons, Bool.and_eq_true] at h
    show (applyRule dragonRule c ++ substitute dragonRule cs).all dragonOK = true
    rw [List.all_append, Bool.and_eq_true]
    refine ⟨?_, ih h.2⟩
    by_cases hx : c = 'X'
    · subst hx; decide
    · by_cases hy : c = 'Y'
      · subst hy; decide
      · rw [applyRule_not_mem]
        · simpa using h.1
        · intro p hp
          simp only [dragonRule, List.mem_cons, List.mem_singleton] at hp
          rcases hp with hh | hh | hh
          · subst hh; simpa using Ne.symm hx
          · subst hh; simpa using Ne.symm hy
          · simp at hh

theorem dragonOK_ne_bar {c : Char} (h : dragonOK c = true) : c ≠ '|' := by
  intro hc
  subst hc
  exact absurd h (by decide)

theorem tagBars_eq_self {bar : Char} {i : ℕ} {s : List Char}
    (h : ∀ c ∈ s, c ≠ bar) : tagBars bar i s = s := by
  induction s with
  | nil => rfl
  | cons c cs ih =>
    show (if c = bar then natChars i ++ ['.'] else [c]) ++ tagBars bar i cs = _
    rw [if_neg (h c (List.mem_cons_self c cs)), ih fun d hd => h d (List.mem_cons_of_mem c hd)]
    rfl

theorem dragonIter_facts (k : ℕ) :
    (dragonIter k).length = 4 * 2 ^ k - 2 ∧
    countXY (dragonIter k) = 2 ^ k ∧
    (dragonIter k).all dragonOK = true := by
  induction k with
  | zero => refine ⟨by decide, by decide, by decide⟩
  | succ k ih =>
    obtain ⟨hlen, hcnt, hall⟩ := ih
    have hstep : dragonIter (k + 1) = substitute dragonRule (dragonIter k) :=
      Function.iterate_succ_apply' _ _ _
    have hpow : 1 ≤ 2 ^ k := Nat.one_le_two_pow
    refine ⟨?_, ?_, ?_⟩
    · rw [hstep, length_substitute_dragon, hlen, hcnt, pow_succ]
      omega
    · rw [hstep, countXY_substitute_dragon, hcnt, pow_succ]
      omega
    · rw [hstep]
      exact all_dragonOK_substitute hall

theorem tagBars_dragonIter (bar : Char) (hbar : bar = '|') (i k : ℕ) :
    tagBars bar i (dragonIter k) = dragonIter k := by
  subst hbar
  refine tagBars_eq_self fun c hc => ?_
  have hall := (dragonIter_facts k).2.2
  rw [List.all_eq_true] at hall
  exact dragonOK_ne_bar (hall c hc)

theorem expandFrom_dragon_start (fuel : ℕ) :
    expandFrom dragonRule '|' true (fuel + 1) 0 dragonAxiom =
      expandFrom dragonRule '|' true fuel 1 (dragonIter 0) := by
  show (if true ∧ dragonAxiom.length > MAX_STRING_SIZE then _ else _) = _
  rw [if_neg (by decide)]
  show expandFrom dragonRule '|' true fuel 1 (tagBars '|' 0 dragonAxiom) = _
  rw [show tagBars '|' 0 dragonAxiom = dragonAxiom from by decide]
  rfl

theorem expandFrom_dragon_step (k fuel : ℕ)
    (h : (dragonIter k).length ≤ MAX_STRING_SIZE) :
    expandFrom dragonRule '|' true (fuel + 1) (k + 1) (dragonIter k) =
      expandFrom dragonRule '|' true fuel (k + 2) (dragonIter (k + 1)) := by
  show (if true ∧ (dragonIter k).length > MAX_STRING_SIZE then _ else _) = _
  rw [if_neg (by simpa using Nat.not_lt.mpr h)]
  show expandFrom dragonRule '|' true fuel (k + 2)
      (tagBars '|' (k + 1) (if k + 1 = 0 then dragonIter k else substitute dragonRule (dragonIter k))) = _
  have hs : dragonIter (k + 1) = substitute dragonRule (dragonIter k) :=
    Function.iterate_succ_apply' _ _ _
  rw [if_neg (Nat.succ_ne_zero k), ← hs, tagBars_dragonIter '|' rfl]

theorem expandFrom_dragon_chain (m : ℕ)
    (h : ∀ j, j < m → (dragonIter j).length ≤ MAX_STRING_SIZE) (fuel : ℕ) :
    expandFrom dragonRule '|' true (m + fuel) 1 (dragonIter 0) =
      expandFrom dragonRule '|' true fuel (m + 1) (dragonIter m) := by
  induction m generalizing fuel with
  | zero => rw [Nat.zero_add]
  | succ m ih =>
    have step := expandFrom_dragon_step m fuel (h m (Nat.lt_succ_self m))
    have harith : m + 1 + fuel = m + (fuel + 1) := by omega
    calc expandFrom dragonRule '|' true (m + 1 + fuel) 1 (dragonIter 0)
        = expandFrom dragonRule '|' true (m + (fuel + 1)) 1 (dragonIter 0) := by
          rw [harith]
      _ = expandFrom dragonRule '|' true (fuel + 1) (m + 1) (dragonIter m) :=
          ih (fun j hj => h j (Nat.lt_succ_of_lt hj)) (fuel + 1)
      _ = expandFrom dragonRule '|' true fuel (m + 2) (dragonIter (m + 1)) := step

theorem dragonIter_length_le {j : ℕ} (hj : j ≤ 20) :
    (dragonIter j).length ≤ MAX_STRING_SIZE := by
  rw [(dragonIter_facts j).1]
  have : 2 ^ j ≤ 2 ^ 20 := Nat.pow_le_pow_right (by norm_num) hj
  have h20 : (2 : ℕ) ^ 20 = 1048576 := by norm_num
  unfold MAX_STRING_SIZE
  omega

theorem char_toNat_ofNat {n : ℕ} (h : n < 55296) : (Char.ofNat n).toNat = n := by
  have hv : n.isValidChar := Or.inl h
  unfold Char.ofNat
  rw [dif_pos hv]
  rfl

theorem toUpper_of_not_lower {c : Char} (h : ¬(c.toNat ≥ 97 ∧ c.toNat ≤ 122)) :
    c.toUpper = c := by
  unfold Char.toUpper
  exact if_neg h

theorem toNat_toUpper_of_lower {c : Char} (h : c.toNat ≥ 97 ∧ c.toNat ≤ 122) :
    c.toUpper.toNat = c.toNat - 32 := by
  unfold Char.toUpper
  rw [if_pos h]
  exact char_toNat_ofNat (by omega)

theorem toUpper_toUpper (c : Char) : c.toUpper.toUpper = c.toUpper := by
  by_cases h : c.toNat ≥ 97 ∧ c.toNat ≤ 122
  · have h2 := toNat_toUpper_of_lower h
    exact toUpper_of_not_lower (by omega)
  · rw [toUpper_of_not_lower h, toUpper_of_not_lower h]

theorem not_ws_of_toNat {c : Char} (h32 : c.toNat ≠ 32) (h9 : c.toNat ≠ 9)
    (h13 : c.toNat ≠ 13) (h10 : c.toNat ≠ 10) : c.isWhitespace = false := by
  have hs : c ≠ ' ' := fun he => h32 (by subst he; rfl)
  have ht : c ≠ '\t' := fun he => h9 (by subst he; rfl)
  have hr : c ≠ '\r' := fun he => h13 (by subst he; rfl)
  have hn : c ≠ '\n' := fun he => h10 (by subst he; rfl)
  simp [Char.isWhitespace, hs, ht, hr, hn]

theorem toNat_of_eq {c d : Char} (h : c = d) : c.toNat = d.toNat := by rw [h]

theorem isWhitespace_toUpper (c : Char) : c.toUpper.isWhitespace = c.isWhitespace := by
  by_cases h : c.toNat ≥ 97 ∧ c.toNat ≤ 122
  · have h2 := toNat_toUpper_of_lower h
    rw [not_ws_of_toNat (by omega) (by omega) (by omega) (by omega),
      not_ws_of_toNat (c := c) (by omega) (by omega) (by omega) (by omega)]
  · rw [toUpper_of_not_lower h]

theorem strip_map_toUpper (s : List Char) :
    strip (s.map Char.toUpper) = (strip s).map Char.toUpper := by
  have hws : (Char.isWhitespace ∘ Char.toUpper) = Char.isWhitespace := by
    funext c
    exact isWhitespace_toUpper c
  unfold strip
  rw [List.dropWhile_map, hws, ← List.map_reverse, List.dropWhile_map, hws,
    ← List.map_reverse]

theorem strip_eq_rdrop_drop (s : List Char) :
    strip s = List.rdropWhile Char.isWhitespace (s.dropWhile Char.isWhitespace) := by
  rfl

theorem prefix_head_not {p : Char → Bool} {u t : List Char} (hu : u <+: t)
    (hl : 0 < u.length) (ht : ∀ h : 0 < t.length, ¬ p (t.get ⟨0, h⟩)) :
    ¬ p (u.get ⟨0, hl⟩) := by
  obtain ⟨r, hr⟩ := hu
  cases u with
  | nil => simp at hl
  | cons a us =>
    have hlen : 0 < t.length := by rw [← hr]; simp
    have hh : t.get ⟨0, hlen⟩ = a := by
      have : t = a :: (us ++ r) := by rw [← hr]; rfl
      subst this
      rfl
    have h2 := ht hlen
    rw [hh] at h2
    simpa using h2

theorem strip_strip (s : List Char) : strip (strip s) = strip s := by
  rw [strip_eq_rdrop_drop, strip_eq_rdrop_drop]
  have h1 : (List.rdropWhile Char.isWhitespace
      (s.dropWhile Char.isWhitespace)).dropWhile Char.isWhitespace =
      List.rdropWhile Char.isWhitespace (s.dropWhile Char.isWhitespace) := by
    rw [List.dropWhile_eq_self_iff]
    intro hl
    exact prefix_head_not (List.rdropWhile_prefix _ _) hl
      (fun hh => List.dropWhile_get_zero_not Char.isWhitespace s hh)
  rw [h1, List.rdropWhile_idempotent]

theorem strip_of_no_ws {s : List Char}
    (h : ∀ c ∈ s, c.isWhitespace = false) : strip s = s := by
  rw [strip_eq_rdrop_drop]
  have h1 : s.dropWhile Char.isWhitespace = s := by
    rw [List.dropWhile_eq_self_iff]
    intro hl
    have hm := h _ (List.get_mem s 0 hl)
    simp only [List.get_eq_getElem] at hm
    simp [hm]
  rw [h1, List.rdropWhile_eq_self_iff]
  intro hl
  simp [h _ (List.getLast_mem hl)]

theorem cleanStr_cleanStr (s : List Char) : cleanStr (cleanStr s) = cleanStr s := by
  unfold cleanStr
  rw [strip_map_toUpper, strip_strip, List.map_map]
  congr 1
  funext c
  exact toUpper_toUpper c

theorem mem_dictInsert {k v : List Char} {d : List (List Char × List Char)}
    {p : List Char × List Char} (h : p ∈ dictInsert k v d) :
    p = (k, v) ∨ p ∈ d := by
  induction d with
  | nil =>
    rw [show dictInsert k v [] = [(k, v)] from rfl] at h
    exact Or.inl (by simpa using h)
  | cons q rest ih =>
    unfold dictInsert at h
    by_cases hq : q.1 = k
    · rw [if_pos hq] at h
      rcases List.mem_cons.mp h with h | h
      · exact Or.inl (by rw [h, hq])
      · exact Or.inr (List.mem_cons_of_mem q h)
    · rw [if_neg hq] at h
      rcases List.mem_cons.mp h with h | h
      · exact Or.inr (List.mem_cons.mpr (Or.inl h))
      · rcases ih h with h | h
        · exact Or.inl h
        · exact Or.inr (List.mem_cons_of_mem q h)

theorem keys_dictInsert {k v : List Char} {d : List (List Char × List Char)}
    {x : List Char} (h : x ∈ (dictInsert k v d).map Prod.fst) :
    x = k ∨ x ∈ d.map Prod.fst := by
  rcases List.mem_map.mp h with ⟨p, hp, hx⟩
  rcases mem_dictInsert hp with h | h
  · left
    rw [← hx, h]
  · right
    exact List.mem_map.mpr ⟨p, h, hx⟩

theorem nodup_keys_dictInsert {k v : List Char} {d : List (List Char × List Char)}
    (h : (d.map Prod.fst).Nodup) : ((dictInsert k v d).map Prod.fst).Nodup := by
  induction d with
  | nil => simp [dictInsert]
  | cons q rest ih =>
    rw [List.map_cons, List.nodup_cons] at h
    unfold dictInsert
    by_cases hq : q.1 = k
    · rw [if_pos hq]
      rw [List.map_cons, List.nodup_cons]
      exact ⟨h.1, h.2⟩
    · rw [if_neg hq]
      rw [List.map_cons, List.nodup_cons]
      refine ⟨?_, ih h.2⟩
      intro hmem
      rcases keys_dictInsert hmem with hh | hh
      · exact hq hh
      · exact h.1 hh

theorem dictInsert_of_not_mem {k v : List Char} {d : List (List Char × List Char)}
    (h : k ∉ d.map Prod.fst) : dictInsert k v d = d ++ [(k, v)] := by
  induction d with
  | nil => rfl
  | cons q rest ih =>
    rw [List.map_cons] at h
    unfold dictInsert
    rw [if_neg (fun he : q.1 = k => h (List.mem_cons.mpr (Or.inl he.symm))), ih
      (fun hm => h (List.mem_cons.mpr (Or.inr hm)))]
    rfl

theorem foldl_dictInsert_rebuild (l : List (List Char × List Char)) :
    ∀ acc : List (List Char × List Char), (l.map Prod.fst).Nodup →
    (∀ x ∈ l.map Prod.fst, x ∉ acc.map Prod.fst) →
    l.foldl (fun a p => dictInsert p.1 p.2 a) acc = acc ++ l := by
  induction l with
  | nil => intro acc _ _; simp
  | cons q rest ih =>
    intro acc hnd hdisj
    rw [List.map_cons, List.nodup_cons] at hnd
    have hq_not : q.1 ∉ acc.map Prod.fst := hdisj q.1 (by simp)
    rw [List.foldl_cons, dictInsert_of_not_mem hq_not]
    have hdisj' : ∀ x ∈ rest.map Prod.fst, x ∉ (acc ++ [(q.1, q.2)]).map Prod.fst := by
      intro x hx
      rw [List.map_append]
      intro hmem
      rcases List.mem_append.mp hmem with hmem | hmem
      · exact hdisj x (List.mem_cons_of_mem _ hx) hmem
      · have hxq : x = q.1 := by simpa using hmem
        rw [hxq] at hx
        exact hnd.1 hx
    rw [ih (acc ++ [(q.1, q.2)]) hnd.2 hdisj']
    simp

theorem foldl_cleanInsert_mem (d : List (List Char × List Char)) :
    ∀ acc : List (List Char × List Char),
    (∀ q ∈ acc, cleanStr q.1 = q.1 ∧ cleanStr q.2 = q.2) →
    ∀ q ∈ d.foldl (fun acc p => dictInsert (cleanStr p.1) (cleanStr p.2) acc) acc,
      cleanStr q.1 = q.1 ∧ cleanStr q.2 = q.2 := by
  induction d with
  | nil => intro acc hacc q hq; exact hacc q hq
  | cons r rest ih =>
    intro acc hacc q hq
    rw [List.foldl_cons] at hq
    refine ih _ ?_ q hq
    intro q' hq'
    rcases mem_dictInsert hq' with h' | h'
    · rw [h']
      exact ⟨cleanStr_cleanStr _, cleanStr_cleanStr _⟩
    · exact hacc q' h'

theorem clean_rule_dict_mem {d : List (List Char × List Char)}
    {p : List Char × List Char} (h : p ∈ clean_rule_dict d) :
    cleanStr p.1 = p.1 ∧ cleanStr p.2 = p.2 :=
  foldl_cleanInsert_mem d [] (by simp) p h

theorem foldl_cleanInsert_nodup (d : List (List Char × List Char)) :
    ∀ acc : List (List Char × List Char), (acc.map Prod.fst).Nodup →
    ((d.foldl (fun acc p => dictInsert (cleanStr p.1) (cleanStr p.2) acc) acc).map
      Prod.fst).Nodup := by
  induction d with
  | nil => intro acc hacc; exact hacc
  | cons r rest ih =>
    intro acc hacc
    rw [List.foldl_cons]
    exact ih _ (nodup_keys_dictInsert hacc)

theorem clean_rule_dict_nodup_keys (d : List (List Char × List Char)) :
    ((clean_rule_dict d).map Prod.fst).Nodup :=
  foldl_cleanInsert_nodup d [] (by simp)

theorem clean_rule_dict_idem (d : List (List Char × List Char)) :
    clean_rule_dict (clean_rule_dict d) = clean_rule_dict d := by
  have hmem := fun p hp => clean_rule_dict_mem (d := d) (p := p) hp
  have hnd := clean_rule_dict_nodup_keys d
  show (clean_rule_dict d).foldl
      (fun acc p => dictInsert (cleanStr p.1) (cleanStr p.2) acc) [] =
    clean_rule_dict d
  have hext := List.foldl_ext
    (fun acc p => dictInsert (cleanStr p.1) (cleanStr p.2) acc)
    (fun acc p => dictInsert p.1 p.2 acc) (l := clean_rule_dict d) []
    (fun acc p hp => by
      show dictInsert (cleanStr p.1) (cleanStr p.2) acc = dictInsert p.1 p.2 acc
      rw [(hmem p hp).1, (hmem p hp).2])
  rw [hext, foldl_dictInsert_rebuild _ [] hnd (by simp), List.nil_append]

theorem replaceSubAux_single (a b : Char) (fuel : ℕ) :
    ∀ s : List Char, s.length ≤ fuel →
    replaceSubAux a [] [b] fuel s = s.map (fun c => if c = a then b else c) := by
  induction fuel with
  | zero =>
    intro s hs
    rw [List.length_eq_zero.mp (Nat.le_zero.mp hs)]
    rfl
  | succ fuel ih =>
    intro s hs
    cases s with
    | nil => rfl
    | cons c cs =>
      rw [replaceSubAux]
      by_cases h : a = c
      · subst h
        simp only [List.isPrefixOf, List.isPrefixOf_nil_left, Bool.and_true,
          beq_self_eq_true, if_pos]
        rw [show List.drop [].length cs = cs from rfl, ih cs (by simpa using hs)]
        simp
      · have hpf : ([a].isPrefixOf (c :: cs)) = false := by
          simp [List.isPrefixOf, h]
        rw [hpf]
        simp only [Bool.false_eq_true, if_false]
        rw [ih cs (by simpa using hs)]
        simp [Ne.symm h]

theorem replaceSub_single (a b : Char) (s : List Char) :
    replaceSub a [] [b] s = s.map (fun c => if c = a then b else c) :=
  replaceSubAux_single a b s.length s le_rfl

theorem mem_of_isPrefixOf {pat s : List Char} (h : pat.isPrefixOf s = true) :
    ∀ c ∈ pat, c ∈ s := by
  induction pat generalizing s with
  | nil => simp
  | cons p ps ih =>
    cases s with
    | nil => simp at h
    | cons q qs =>
      rw [show (p :: ps).isPrefixOf (q :: qs) = ((p == q) && ps.isPrefixOf qs) from rfl,
        Bool.and_eq_true, beq_iff_eq] at h
      intro c hc
      rcases List.mem_cons.mp hc with hc | hc
      · rw [hc, h.1]
        exact List.mem_cons_self _ _
      · exact List.mem_cons_of_mem _ (ih h.2 c hc)

theorem mem_of_containsSub {pat s : List Char} (h : containsSub pat s = true) :
    ∀ c ∈ pat, c ∈ s := by
  induction s with
  | nil =>
    rw [show containsSub pat [] = pat.isEmpty from rfl] at h
    rw [List.isEmpty_iff.mp h]
    simp
  | cons q qs ih =>
    rw [show containsSub pat (q :: qs) =
      (pat.isPrefixOf (q :: qs) || containsSub pat qs) from rfl,
      Bool.or_eq_true] at h
    rcases h with h | h
    · exact mem_of_isPrefixOf h
    · exact fun c hc => List.mem_cons_of_mem _ (ih h c hc)

theorem containsSub_eq_false {pat s : List Char} {x : Char} (hx : x ∈ pat)
    (hs : x ∉ s) : containsSub pat s = false := by
  by_contra h
  exact hs (mem_of_containsSub (Bool.not_eq_false _ |>.mp h) x hx)

theorem containsSub_single_of_mem {a : Char} {s : List Char} (h : a ∈ s) :
    containsSub [a] s = true := by
  induction s with
  | nil => simp at h
  | cons q qs ih =>
    rw [show containsSub [a] (q :: qs) =
      ([a].isPrefixOf (q :: qs) || containsSub [a] qs) from rfl, Bool.or_eq_true]
    rcases List.mem_cons.mp h with h | h
    · left
      simp [List.isPrefixOf, h]
    · exact Or.inr (ih h)

theorem map_subst_of_not_mem {a b : Char} {l : List Char} (h : a ∉ l) :
    l.map (fun c => if c = a then b else c) = l := by
  induction l with
  | nil => rfl
  | cons c cs ih =>
    rw [List.map_cons, if_neg (fun he : c = a => h (he ▸ List.mem_cons_self c cs)),
      ih (fun hm => h (List.mem_cons_of_mem c hm))]

theorem map_subst_self (a : Char) (l : List Char) :
    l.map (fun c => if c = a then a else c) = l := by
  induction l with
  | nil => rfl
  | cons c cs ih =>
    rw [List.map_cons, ih]
    by_cases h : c = a
    · rw [if_pos h, h]
    · rw [if_neg h]

theorem joinKV_single (sep dv : Char) (p : List Char × List Char) :
    joinKV sep dv [p] = p.1 ++ sep :: p.2 := rfl

theorem joinKV_cons_cons (sep dv : Char) (p q : List Char × List Char)
    (rest : List (List Char × List Char)) :
    joinKV sep dv (p :: q :: rest) =
      p.1 ++ sep :: (p.2 ++ dv :: joinKV sep dv (q :: rest)) := rfl

theorem mem_joinKV {c sep dv : Char} :
    ∀ {d : List (List Char × List Char)}, c ∈ joinKV sep dv d →
    c = sep ∨ c = dv ∨ ∃ p ∈ d, c ∈ p.1 ∨ c ∈ p.2 := by
  intro d
  induction d with
  | nil => intro h; simp [joinKV] at h
  | cons p rest ih =>
    intro h
    cases rest with
    | nil =>
      rw [joinKV_single] at h
      rcases List.mem_append.mp h with h | h
      · exact Or.inr (Or.inr ⟨p, by simp, Or.inl h⟩)
      · rcases List.mem_cons.mp h with h | h
        · exact Or.inl h
        · exact Or.inr (Or.inr ⟨p, by simp, Or.inr h⟩)
    | cons q rest' =>
      rw [joinKV_cons_cons] at h
      rcases List.mem_append.mp h with h | h
      · exact Or.inr (Or.inr ⟨p, by simp, Or.inl h⟩)
      · rcases List.mem_cons.mp h with h | h
        · exact Or.inl h
        · rcases List.mem_append.mp h with h | h
          · exact Or.inr (Or.inr ⟨p, by simp, Or.inr h⟩)
          · rcases List.mem_cons.mp h with h | h
            · exact Or.inr (Or.inl h)
            · rcases ih h with h | h | ⟨r, hr, hc⟩
              · exact Or.inl h
              · exact Or.inr (Or.inl h)
              · exact Or.inr (Or.inr ⟨r, List.mem_cons_of_mem p hr, hc⟩)

theorem sep_mem_joinKV {sep dv : Char} {d : List (List Char × List Char)}
    (h : d ≠ []) : sep ∈ joinKV sep dv d := by
  cases d with
  | nil => exact absurd rfl h
  | cons p rest =>
    cases rest with
    | nil =>
      rw [joinKV_single]
      exact List.mem_append.mpr (Or.inr (List.mem_cons_self _ _))
    | cons q rest' =>
      rw [joinKV_cons_cons]
      exact List.mem_append.mpr (Or.inr (List.mem_cons_self _ _))

theorem map_joinKV (f : Char → Char) (sep dv : Char) (hsep : f sep = sep)
    (hdv : f dv = dv) :
    ∀ d : List (List Char × List Char),
    (joinKV sep dv d).map f =
      joinKV sep dv (d.map (fun p => (p.1.map f, p.2.map f))) := by
  intro d
  induction d with
  | nil => rfl
  | cons p rest ih =>
    cases rest with
    | nil => simp [joinKV_single, hsep]
    | cons q rest' =>
      rw [joinKV_cons_cons, List.map_cons (fun p => (p.1.map f, p.2.map f)) p (q :: rest'),
        List.map_cons (fun p => (p.1.map f, p.2.map f)) q rest',
        joinKV_cons_cons, List.map_append, List.map_cons, List.map_append,
        List.map_cons, hsep, hdv, ih]
      rfl

theorem map_subst_joinKV_sep {a b dv : Char} (hdv : dv ≠ a) :
    ∀ d : List (List Char × List Char), (∀ p ∈ d, a ∉ p.1 ∧ a ∉ p.2) →
    (joinKV a dv d).map (fun c => if c = a then b else c) = joinKV b dv d := by
  intro d
  induction d with
  | nil => intro _; rfl
  | cons p rest ih =>
    intro hmem
    have hp := hmem p (List.mem_cons_self _ _)
    cases rest with
    | nil =>
      rw [joinKV_single, joinKV_single, List.map_append, List.map_cons,
        map_subst_of_not_mem hp.1, map_subst_of_not_mem hp.2, if_pos rfl]
    | cons q rest' =>
      rw [joinKV_cons_cons, joinKV_cons_cons, List.map_append, List.map_cons,
        List.map_append, List.map_cons, map_subst_of_not_mem hp.1,
        map_subst_of_not_mem hp.2, if_pos rfl, if_neg hdv,
        ih (fun r hr => hmem r (List.mem_cons_of_mem p hr))]

theorem map_subst_joinKV_dv {sep a b : Char} (hsep : sep ≠ a) :
    ∀ d : List (List Char × List Char), (∀ p ∈ d, a ∉ p.1 ∧ a ∉ p.2) →
    (joinKV sep a d).map (fun c => if c = a then b else c) = joinKV sep b d := by
  intro d
  induction d with
  | nil => intro _; rfl
  | cons p rest ih =>
    intro hmem
    have hp := hmem p (List.mem_cons_self _ _)
    cases rest with
    | nil =>
      rw [joinKV_single, joinKV_single, List.map_append, List.map_cons,
        map_subst_of_not_mem hp.1, map_subst_of_not_mem hp.2, if_neg hsep]
    | cons q rest' =>
      rw [joinKV_cons_cons, joinKV_cons_cons, List.map_append, List.map_cons,
        List.map_append, List.map_cons, map_subst_of_not_mem hp.1,
        map_subst_of_not_mem hp.2, if_neg hsep, if_pos rfl,
        ih (fun r hr => hmem r (List.mem_cons_of_mem p hr))]

theorem plainChar_spec {c : Char} (h : plainChar c = true) :
    c ≠ ':' ∧ c ≠ '=' ∧ c ≠ ';' ∧ c ≠ ',' ∧ c ≠ '>' ∧ c.isWhitespace = false := by
  unfold plainChar at h
  rw [Bool.not_eq_true'] at h
  simp only [Bool.or_eq_false_iff, beq_eq_false_iff_ne] at h
  exact ⟨h.1.1.1.1.1, h.1.1.1.1.2, h.1.1.1.2, h.1.1.2, h.1.2, h.2⟩

theorem plainChar_of_range {c : Char} (h65 : 65 ≤ c.toNat) (h122 : c.toNat ≤ 122) :
    plainChar c = true := by
  have hne : ∀ d : Char, d.toNat < 65 → (c == d) = false := by
    intro d hd
    rw [beq_eq_false_iff_ne]
    intro he
    rw [he] at h65
    omega
  unfold plainChar
  rw [hne ':' (by decide), hne '=' (by decide), hne ';' (by decide),
    hne ',' (by decide), hne '>' (by decide),
    not_ws_of_toNat (by omega) (by omega) (by omega) (by omega)]
  rfl

theorem plainChar_toUpper (c : Char) : plainChar (Char.toUpper c) = plainChar c := by
  by_cases h : c.toNat ≥ 97 ∧ c.toNat ≤ 122
  · have h2 := toNat_toUpper_of_lower h
    rw [plainChar_of_range (by omega) (by omega),
      plainChar_of_range (c := c) (by omega) (by omega)]
  · rw [toUpper_of_not_lower h]

theorem splitOn_piece {sep : Char} {k v : List Char} (hk : sep ∉ k) (hv : sep ∉ v) :
    (k ++ sep :: v).splitOn sep = [k, v] := by
  show (k ++ sep :: v).splitOnP (· == sep) = [k, v]
  rw [List.splitOnP_first (· == sep) k
    (fun x hx => by
      simp only [beq_iff_eq]
      exact fun he => hk (he ▸ hx)) sep (by simp) v]
  rw [List.splitOnP_eq_single (· == sep) v
    (fun x hx => by
      simp only [beq_iff_eq]
      exact fun he => hv (he ▸ hx))]

theorem splitOn_joinKV {sep dv : Char} (hsd : sep ≠ dv) :
    ∀ d : List (List Char × List Char), d ≠ [] →
    (∀ p ∈ d, dv ∉ p.1 ∧ dv ∉ p.2) →
    (joinKV sep dv d).splitOn dv = d.map (fun p => p.1 ++ sep :: p.2) := by
  intro d
  induction d with
  | nil => intro h _; exact absurd rfl h
  | cons p rest ih =>
    intro _ hmem
    have hp := hmem p (List.mem_cons_self _ _)
    cases rest with
    | nil =>
      rw [joinKV_single, List.map_cons, List.map_nil]
      show (p.1 ++ sep :: p.2).splitOnP (· == dv) = [p.1 ++ sep :: p.2]
      apply List.splitOnP_eq_single
      intro x hx
      simp only [beq_iff_eq]
      intro he
      subst he
      rcases List.mem_append.mp hx with h | h
      · exact hp.1 h
      · rcases List.mem_cons.mp h with h | h
        · exact hsd h.symm
        · exact hp.2 h
    | cons q rest' =>
      rw [joinKV_cons_cons]
      have hre : p.1 ++ sep :: (p.2 ++ dv :: joinKV sep dv (q :: rest')) =
          (p.1 ++ sep :: p.2) ++ dv :: joinKV sep dv (q :: rest') := by
        rw [List.append_assoc, List.cons_append]
      rw [hre, List.map_cons]
      show ((p.1 ++ sep :: p.2) ++ dv :: joinKV sep dv (q :: rest')).splitOnP (· == dv) =
        (p.1 ++ sep :: p.2) :: (q :: rest').map (fun p => p.1 ++ sep :: p.2)
      rw [List.splitOnP_first (· == dv) (p.1 ++ sep :: p.2)
        (fun x hx => by
          simp only [beq_iff_eq]
          intro he
          subst he
          rcases List.mem_append.mp hx with h | h
          · exact hp.1 h
          · rcases List.mem_cons.mp h with h | h
            · exact hsd h.symm
            · exact hp.2 h) dv (by simp) _]
      rw [show (joinKV sep dv (q :: rest')).splitOnP (· == dv) =
        (joinKV sep dv (q :: rest')).splitOn dv from rfl]
      rw [ih (by simp) (fun r hr => hmem r (List.mem_cons_of_mem p hr))]

theorem foldlM_insert_pieces :
    ∀ (l : List (List Char × List Char)) (acc : List (List Char × List Char)),
    (∀ p ∈ l, '=' ∉ p.1 ∧ '=' ∉ p.2) →
    (List.foldlM (fun acc piece =>
        match piece.splitOn '=' with
        | [k, v] => Except.ok (dictInsert (strip k) (strip v) acc)
        | _ => Except.error ()) acc (l.map (fun p => p.1 ++ '=' :: p.2))) =
      Except.ok (l.foldl (fun acc p => dictInsert (strip p.1) (strip p.2) acc) acc) := by
  intro l
  induction l with
  | nil => intro acc _; rfl
  | cons p rest ih =>
    intro acc hmem
    have hp := hmem p (List.mem_cons_self _ _)
    have hsplit : (p.1 ++ '=' :: p.2).splitOn '=' = [p.1, p.2] :=
      splitOn_piece hp.1 hp.2
    rw [List.map_cons, List.foldlM_cons, hsplit]
    show (List.foldlM _ (dictInsert (strip p.1) (strip p.2) acc)
      (rest.map (fun p => p.1 ++ '=' :: p.2))) = _
    rw [ih _ (fun r hr => hmem r (List.mem_cons_of_mem p hr)), List.foldl_cons]

theorem dv_mem_joinKV_two (sep dv : Char) (p q : List Char × List Char)
    (rest : List (List Char × List Char)) :
    dv ∈ joinKV sep dv (p :: q :: rest) := by
  rw [joinKV_cons_cons]
  refine List.mem_append.mpr (Or.inr (List.mem_cons_of_mem _ ?_))
  exact List.mem_append.mpr (Or.inr (List.mem_cons_self _ _))

theorem clean_rule_str_render (d : List (List Char × List Char)) (hne : d ≠ [])
    (hplain : ∀ p ∈ d, plainPair p = true) :
    clean_rule_str (renderRule d) = Except.ok (clean_rule_dict d) := by
  classical
  have hplain' : ∀ p ∈ d, (∀ c ∈ p.1, plainChar c = true) ∧
      (∀ c ∈ p.2, plainChar c = true) := by
    intro p hp
    have hh := hplain p hp
    rw [plainPair, Bool.and_eq_true, List.all_eq_true, List.all_eq_true] at hh
    exact hh
  set dU := d.map (fun p => (p.1.map Char.toUpper, p.2.map Char.toUpper)) with hdU
  have hUne : dU ≠ [] := by
    rw [hdU]
    simpa using hne
  have hplainU : ∀ p ∈ dU, (∀ c ∈ p.1, plainChar c = true) ∧
      (∀ c ∈ p.2, plainChar c = true) := by
    intro p hp
    rw [hdU] at hp
    rcases List.mem_map.mp hp with ⟨r, hr, hpr⟩
    subst hpr
    constructor
    · intro c hc
      rcases List.mem_map.mp hc with ⟨c', hc', hcc⟩
      rw [← hcc, plainChar_toUpper]
      exact (hplain' r hr).1 c' hc'
    · intro c hc
      rcases List.mem_map.mp hc with ⟨c', hc', hcc⟩
      rw [← hcc, plainChar_toUpper]
      exact (hplain' r hr).2 c' hc'
  have hnotin : ∀ (x : Char), (∀ c : Char, plainChar c = true → c ≠ x) →
      ∀ p ∈ dU, x ∉ p.1 ∧ x ∉ p.2 := by
    intro x hx p hp
    exact ⟨fun hmem => hx _ ((hplainU p hp).1 _ hmem) rfl,
      fun hmem => hx _ ((hplainU p hp).2 _ hmem) rfl⟩
  have hcolon : ∀ p ∈ dU, ':' ∉ p.1 ∧ ':' ∉ p.2 :=
    hnotin ':' (fun c hc => (plainChar_spec hc).1)
  have hsemi : ∀ p ∈ dU, ';' ∉ p.1 ∧ ';' ∉ p.2 :=
    hnotin ';' (fun c hc => (plainChar_spec hc).2.2.1)
  have hcomma : ∀ p ∈ dU, ',' ∉ p.1 ∧ ',' ∉ p.2 :=
    hnotin ',' (fun c hc => (plainChar_spec hc).2.2.2.1)
  have heqs : ∀ p ∈ dU, '=' ∉ p.1 ∧ '=' ∉ p.2 :=
    hnotin '=' (fun c hc => (plainChar_spec hc).2.1)
  have hgt : '>' ∉ joinKV '=' ';' dU := by
    intro hmem
    rcases mem_joinKV hmem with h | h | ⟨p, hp, hc⟩
    · exact absurd h (by decide)
    · exact absurd h (by decide)
    · rcases hc with hc | hc
      · exact (plainChar_spec ((hplainU p hp).1 _ hc)).2.2.2.2.1 rfl
      · exact (plainChar_spec ((hplainU p hp).2 _ hc)).2.2.2.2.1 rfl
  -- stage 1: uppercase and space removal leave the rendered string in joined form
  have h1 : ((renderRule d).map Char.toUpper).filter (fun c => c != ' ') =
      joinKV ':' ';' dU := by
    rw [show renderRule d = joinKV ':' ';' d from rfl,
      map_joinKV Char.toUpper ':' ';' (by decide) (by decide) d, ← hdU]
    rw [List.filter_eq_self.mpr]
    intro a ha
    rcases mem_joinKV ha with h | h | ⟨p, hp, hc⟩
    · subst h; decide
    · subst h; decide
    · have hws : a.isWhitespace = false := by
        rcases hc with hc | hc
        · exact (plainChar_spec ((hplainU p hp).1 _ hc)).2.2.2.2.2
        · exact (plainChar_spec ((hplainU p hp).2 _ hc)).2.2.2.2.2
      rw [bne_iff_ne]
      intro he
      rw [he] at hws
      exact absurd hws (by decide)
  -- stage 2: the separator replacement loop
  have h2 : sepList.foldl
      (fun acc sep => if containsSub sep acc then replaceSubstr sep ['='] acc else acc)
      (joinKV ':' ';' dU) = joinKV '=' ';' dU := by
    rw [show sepList = [[':'], ['='], ['-', '-', '>'], ['-', '>'], ['=', '>']] from rfl]
    rw [List.foldl_cons, if_pos (containsSub_single_of_mem (sep_mem_joinKV hUne)),
      show replaceSubstr [':'] ['='] (joinKV ':' ';' dU) =
        replaceSub ':' [] ['='] (joinKV ':' ';' dU) from rfl,
      replaceSub_single, map_subst_joinKV_sep (by decide) dU hcolon]
    rw [List.foldl_cons]
    have heqstep : (if containsSub ['='] (joinKV '=' ';' dU) then
        replaceSubstr ['='] ['='] (joinKV '=' ';' dU) else joinKV '=' ';' dU) =
        joinKV '=' ';' dU := by
      by_cases hc : containsSub ['='] (joinKV '=' ';' dU) = true
      · rw [if_pos hc, show replaceSubstr ['='] ['='] (joinKV '=' ';' dU) =
          replaceSub '=' [] ['='] (joinKV '=' ';' dU) from rfl,
          replaceSub_single, map_subst_self]
      · rw [if_neg (by simpa using hc)]
    rw [heqstep]
    have h3 : containsSub ['-', '-', '>'] (joinKV '=' ';' dU) = false :=
      containsSub_eq_false (by decide) hgt
    have h4 : containsSub ['-', '>'] (joinKV '=' ';' dU) = false :=
      containsSub_eq_false (by decide) hgt
    have h5 : containsSub ['=', '>'] (joinKV '=' ';' dU) = false :=
      containsSub_eq_false (by decide) hgt
    rw [List.foldl_cons, if_neg (by simp [h3]), List.foldl_cons, if_neg (by simp [h4]),
      List.foldl_cons, if_neg (by simp [h5]), List.foldl_nil]
  -- stage 3: the divider replacement loop
  have h6 : divList.foldl
      (fun acc dv => if containsSub dv acc then replaceSubstr dv [','] acc else acc)
      (joinKV '=' ';' dU) = joinKV '=' ',' dU := by
    rw [show divList = [[';'], [',']] from rfl]
    have hstep1 : (if containsSub [';'] (joinKV '=' ';' dU) then
        replaceSubstr [';'] [','] (joinKV '=' ';' dU) else joinKV '=' ';' dU) =
        joinKV '=' ',' dU := by
      by_cases hc : containsSub [';'] (joinKV '=' ';' dU) = true
      · rw [if_pos hc, show replaceSubstr [';'] [','] (joinKV '=' ';' dU) =
          replaceSub ';' [] [','] (joinKV '=' ';' dU) from rfl,
          replaceSub_single, map_subst_joinKV_dv (by decide) dU hsemi]
      · rw [if_neg (by simpa using hc)]
        cases hdd : dU with
        | nil => rfl
        | cons p rest =>
          cases rest with
          | nil => rfl
          | cons q rest' =>
            rw [hdd] at hc
            exact absurd
              (containsSub_single_of_mem (dv_mem_joinKV_two '=' ';' p q rest')) hc
    rw [List.foldl_cons, hstep1, List.foldl_cons]
    have hstep2 : (if containsSub [','] (joinKV '=' ',' dU) then
        replaceSubstr [','] [','] (joinKV '=' ',' dU) else joinKV '=' ',' dU) =
        joinKV '=' ',' dU := by
      by_cases hc : containsSub [','] (joinKV '=' ',' dU) = true
      · rw [if_pos hc, show replaceSubstr [','] [','] (joinKV '=' ',' dU) =
          replaceSub ',' [] [','] (joinKV '=' ',' dU) from rfl,
          replaceSub_single, map_subst_self]
      · rw [if_neg (by simpa using hc)]
    rw [hstep2, List.foldl_nil]
  -- stage 4: split into pieces and fold them into the dict
  have h7 : (joinKV '=' ',' dU).splitOn ',' = dU.map (fun p => p.1 ++ '=' :: p.2) :=
    splitOn_joinKV (by decide) dU hUne hcomma
  have h8 := foldlM_insert_pieces dU [] heqs
  -- stage 5: on plain entries, strip is the identity and the folds agree
  have h9 : dU.foldl (fun acc p => dictInsert (strip p.1) (strip p.2) acc) [] =
      clean_rule_dict d := by
    have hstripU : ∀ p ∈ dU, strip p.1 = p.1 ∧ strip p.2 = p.2 := by
      intro p hp
      exact ⟨strip_of_no_ws (fun c hc => (plainChar_spec ((hplainU p hp).1 c hc)).2.2.2.2.2),
        strip_of_no_ws (fun c hc => (plainChar_spec ((hplainU p hp).2 c hc)).2.2.2.2.2)⟩
    have hext := List.foldl_ext
      (fun acc p => dictInsert (strip p.1) (strip p.2) acc)
      (fun acc p => dictInsert p.1 p.2 acc) (l := dU) []
      (fun acc p hp => by
        show dictInsert (strip p.1) (strip p.2) acc = dictInsert p.1 p.2 acc
        rw [(hstripU p hp).1, (hstripU p hp).2])
    rw [hext, hdU, List.foldl_map]
    unfold clean_rule_dict
    have hext2 := List.foldl_ext
      (fun (x : List (List Char × List Char)) (y : List Char × List Char) =>
        dictInsert (y.1.map Char.toUpper) (y.2.map Char.toUpper) x)
      (fun acc p => dictInsert (cleanStr p.1) (cleanStr p.2) acc) (l := d) []
      (fun acc p hp => by
        show dictInsert (p.1.map Char.toUpper) (p.2.map Char.toUpper) acc =
          dictInsert (cleanStr p.1) (cleanStr p.2) acc
        have hk : strip p.1 = p.1 :=
          strip_of_no_ws (fun c hc => (plainChar_spec ((hplain' p hp).1 c hc)).2.2.2.2.2)
        have hv : strip p.2 = p.2 :=
          strip_of_no_ws (fun c hc => (plainChar_spec ((hplain' p hp).2 c hc)).2.2.2.2.2)
        rw [cleanStr, cleanStr, hk, hv])
    exact hext2
  -- assemble
  show clean_rule_str (renderRule d) = _
  unfold clean_rule_str
  rw [h1]
  rw [if_pos (by
    rw [show sepList = [[':'], ['='], ['-', '-', '>'], ['-', '>'], ['=', '>']] from rfl,
      List.any_cons]
    rw [containsSub_single_of_mem (sep_mem_joinKV hUne)]
    rfl)]
  rw [h2]
  simp only [h6, h7, h8, h9]

theorem cleanStr_fixed {s : List Char} (h : cleanStr s = s) :
    strip s = s ∧ s.map Char.toUpper = s := by
  constructor
  · have h1 : strip (cleanStr s) = cleanStr s := by
      rw [cleanStr, strip_map_toUpper, strip_strip]
    rw [h] at h1
    exact h1
  · have h2 : (cleanStr s).map Char.toUpper = cleanStr s := by
      rw [cleanStr, List.map_map]
      congr 1
      funext c
      exact toUpper_toUpper c
    rw [h] at h2
    exact h2

end Lsys

/-- **C1.** `Lsys.expand "FX" {X: "X+YF+", Y: "-FX-Y"} 3` returns exactly
`"FX+YF++-FX-YF++-FX+YF+--FX-YF+"`: at iteration 0 the working string is the
starting string, and each later iteration replaces every character by its rule
value when one exists.  No depth-tag markers arise because the rules contain
no barrier symbol. -/
theorem expand_dragon_depth3 :
    Lsys.expand Lsys.dragonAxiom Lsys.dragonRule 3 '|' true =
      .ok ("FX+YF++-FX-YF++-FX+YF+--FX-YF+".toList) := by
  rfl

/-- **C2.** `Lsys.expand "F" {F: "||F"} 2` with barrier `'|'` returns
`"1|1|2|2|F"`: each barrier occurrence is tagged with the iteration index
current at the moment of its substitution (`str(i)`, not `str(i + 1)`), using
the reserved separator `'.'` internally and restoring it to the bare barrier
after the final iteration. -/
theorem expand_barrier_tagging :
    Lsys.expand ("F".toList) [('F', "||F".toList)] 2 '|' true =
      .ok ("1|1|2|2|F".toList) := by
  rfl

/-- **C3, counterexample.**  At the Dragon grammar the `MemoryError` raised by
`Lsys.expand` at depth 22 carries the loop index `22`, yet depth 22 itself is
not achievable (the very call fails) while depth 21 succeeds: the reported
number is one more than the last achievable depth, so the message does not
report "the last achievable depth". -/
theorem expand_memory_error_depth_cex :
    Lsys.expand Lsys.dragonAxiom Lsys.dragonRule 22 '|' true = .error 22 ∧
    (Lsys.expand Lsys.dragonAxiom Lsys.dragonRule 21 '|' true).isOk = true := by
  constructor
  · show Lsys.expandFrom Lsys.dragonRule '|' true (22 + 1) 0 Lsys.dragonAxiom = .error 22
    rw [Lsys.expandFrom_dragon_start 22,
      show (22 : ℕ) = 21 + 1 from rfl,
      Lsys.expandFrom_dragon_chain 21 (fun j hj => Lsys.dragonIter_length_le (by omega)) 1]
    show (if true ∧ (Lsys.dragonIter 21).length > MAX_STRING_SIZE then _ else _) = _
    rw [if_pos]
    refine ⟨rfl, ?_⟩
    rw [(Lsys.dragonIter_facts 21).1]
    norm_num [MAX_STRING_SIZE]
  · show (Lsys.expandFrom Lsys.dragonRule '|' true (21 + 1) 0 Lsys.dragonAxiom).isOk = true
    rw [Lsys.expandFrom_dragon_start 21,
      show (21 : ℕ) = 21 + 0 from rfl,
      Lsys.expandFrom_dragon_chain 21 (fun j hj => Lsys.dragonIter_length_le (by omega)) 0]
    rfl

/-- **C3, amended.**  When the memory-check flag is set, `Lsys.expand` checks
the string length against the 5e6-character ceiling before each iteration's
substitution pass and raises `MemoryError` rather than silently truncating;
the message reports the loop index `i` at which the pre-pass check fired
(which is one more than the last achievable depth).  In particular the Dragon
grammar at depth 22 raises the error with reported index 22. -/
theorem expand_dragon22_memory_error :
    Lsys.expand Lsys.dragonAxiom Lsys.dragonRule 22 '|' true = .error 22 := by
  show Lsys.expandFrom Lsys.dragonRule '|' true (22 + 1) 0 Lsys.dragonAxiom = .error 22
  rw [Lsys.expandFrom_dragon_start 22,
    show (22 : ℕ) = 21 + 1 from rfl,
    Lsys.expandFrom_dragon_chain 21 (fun j hj => Lsys.dragonIter_length_le (by omega)) 1]
  show (if true ∧ (Lsys.dragonIter 21).length > MAX_STRING_SIZE then _ else _) = _
  rw [if_pos]
  refine ⟨rfl, ?_⟩
  rw [(Lsys.dragonIter_facts 21).1]
  norm_num [MAX_STRING_SIZE]

/-- **C10.**  The memory-ceiling check in `Lsys.expand` happens only before a
substitution pass, never on the string that pass produces: with
`memory_check = true`, the Dragon grammar at depth 21 (whose working string is
just under the ceiling before the final pass) returns normally a string whose
length, 8388606, exceeds the 5e6-character ceiling. -/
theorem expand_no_post_pass_check :
    Lsys.expand Lsys.dragonAxiom Lsys.dragonRule 21 '|' true =
      .ok (Lsys.untag '|' (Lsys.dragonIter 21)) ∧
    (Lsys.dragonIter 20).length ≤ MAX_STRING_SIZE ∧
    (Lsys.untag '|' (Lsys.dragonIter 21)).length > MAX_STRING_SIZE := by
  refine ⟨?_, Lsys.dragonIter_length_le (by omega), ?_⟩
  · show Lsys.expandFrom Lsys.dragonRule '|' true (21 + 1) 0 Lsys.dragonAxiom = _
    rw [Lsys.expandFrom_dragon_start 21,
      show (21 : ℕ) = 21 + 0 from rfl,
      Lsys.expandFrom_dragon_chain 21 (fun j hj => Lsys.dragonIter_length_le (by omega)) 0]
    rfl
  · show (Lsys.untag '|' (Lsys.dragonIter 21)).length > MAX_STRING_SIZE
    unfold Lsys.untag
    rw [List.length_map, (Lsys.dragonIter_facts 21).1]
    norm_num [MAX_STRING_SIZE]

/-- **C7.**  `Lsys.clean_rule` on a rule given as a mapping is idempotent
after one application — re-cleaning its own output returns an equal dict —
and every key and value in the output is whitespace-stripped and upper-cased;
moreover the same normalized dict results whether the rule is given as a dict
or as the equivalent separator-syntax string `"k1:v1;k2:v2;..."` (for symbols
that play no syntactic role in that syntax). -/
theorem clean_rule_normalized :
    (∀ d : List (List Char × List Char),
      Lsys.clean_rule_dict (Lsys.clean_rule_dict d) = Lsys.clean_rule_dict d) ∧
    (∀ (d : List (List Char × List Char)) (p : List Char × List Char),
      p ∈ Lsys.clean_rule_dict d →
      Lsys.strip p.1 = p.1 ∧ p.1.map Char.toUpper = p.1 ∧
      Lsys.strip p.2 = p.2 ∧ p.2.map Char.toUpper = p.2) ∧
    (∀ d : List (List Char × List Char), d ≠ [] →
      (∀ p ∈ d, Lsys.plainPair p = true) →
      Lsys.clean_rule (Lsys.RuleInput.str (Lsys.renderRule d)) =
        Lsys.clean_rule (Lsys.RuleInput.dict d)) := by
  refine ⟨Lsys.clean_rule_dict_idem, ?_, ?_⟩
  · intro d p hp
    have hm := Lsys.clean_rule_dict_mem hp
    have h1 := Lsys.cleanStr_fixed hm.1
    have h2 := Lsys.cleanStr_fixed hm.2
    exact ⟨h1.1, h1.2, h2.1, h2.2⟩
  · intro d hne hp
    show Lsys.clean_rule_str (Lsys.renderRule d) =
      Except.ok (Lsys.clean_rule_dict d)
    exact Lsys.clean_rule_str_render d hne hp

/-- **C7, witness.**  The dict `{x: x+yf+, y: -fx-y}` (lower case on purpose):
its separator-syntax rendering `"x:x+yf+;y:-fx-y"` cleans to the same dict as
the mapping itself, and one application of cleaning is idempotent. -/
theorem clean_rule_normalized_witness :
    Lsys.clean_rule (Lsys.RuleInput.str (Lsys.renderRule Lsys.witnessRule)) =
      Lsys.clean_rule (Lsys.RuleInput.dict Lsys.witnessRule) ∧
    Lsys.clean_rule_dict (Lsys.clean_rule_dict Lsys.witnessRule) =
      Lsys.clean_rule_dict Lsys.witnessRule :=
  ⟨clean_rule_normalized.2.2 Lsys.witnessRule (by decide) (by decide),
    clean_rule_normalized.1 Lsys.witnessRule⟩

theorem add_noise_zero (draws : ℕ → ℝ) (k : ℕ) : add_noise 0 draws k = (0, k) := by
  unfold add_noise
  simp

theorem tphase1_segs_depths (cfg : TConfig) (draws : ℕ → ℝ) (st : TState) (c : Char)
    (h : st.segs.length = st.depths.length) :
    (tphase1 cfg draws st c).1.segs.length = (tphase1 cfg draws st c).1.depths.length := by
  unfold tphase1
  split_ifs <;> simp [h]

theorem tphase1_warn_ignore (cfg : TConfig) (draws : ℕ → ℝ) (st : TState) (c : Char) :
    (tphase1 cfg draws st c).1.warnings = st.warnings ∧
    (tphase1 cfg draws st c).1.ignore = st.ignore ∧
    (tphase1 cfg draws st c).1.num = st.num := by
  unfold tphase1
  split_ifs <;> simp

theorem tphase2_segs_depths {cfg : TConfig} {draws : ℕ → ℝ} {c : Char}
    {st1 st2 : TState} {found : Bool}
    (h : tphase2 cfg draws c st1 found = some st2)
    (hl : st1.segs.length = st1.depths.length) :
    st2.segs.length = st2.depths.length := by
  unfold tphase2 at h
  split_ifs at h <;>
    first
    | · simp only [Option.some.injEq] at h
        subst h
        simpa using hl
    | · cases hst : st1.stack with
        | nil =>
          rw [hst] at h
          simp at h
        | cons hd rest =>
          obtain ⟨px, py, pa⟩ := hd
          rw [hst] at h
          simp only [Option.some.injEq] at h
          subst h
          simpa using hl

theorem tstep_segs_depths {cfg : TConfig} {draws : ℕ → ℝ} {st st' : TState} {c : Char}
    (h : tstep cfg draws st c = some st')
    (hl : st.segs.length = st.depths.length) :
    st'.segs.length = st'.depths.length := by
  unfold tstep at h
  by_cases hd : c.isDigit = true
  · rw [if_pos hd] at h
    simp only [Option.some.injEq] at h
    subst h
    exact hl
  · rw [if_neg hd] at h
    simp only [Option.map_eq_some'] at h
    obtain ⟨a, ha, hfa⟩ := h
    subst hfa
    simpa using tphase2_segs_depths ha (tphase1_segs_depths cfg draws st c hl)

theorem runT_segs_depths {cfg : TConfig} {draws : ℕ → ℝ} :
    ∀ {s : List Char} {st st' : TState}, runT cfg draws st s = some st' →
    st.segs.length = st.depths.length → st'.segs.length = st'.depths.length := by
  intro s
  induction s with
  | nil =>
    intro st st' h hl
    rw [show runT cfg draws st [] = some st from rfl] at h
    simp only [Option.some.injEq] at h
    subst h
    exact hl
  | cons c cs ih =>
    intro st st' h hl
    rw [show runT cfg draws st (c :: cs) =
      (match tstep cfg draws st c with
       | none => none
       | some st1 => runT cfg draws st1 cs) from rfl] at h
    cases hstep : tstep cfg draws st c with
    | none => rw [hstep] at h; simp at h
    | some st1 =>
      rw [hstep] at h
      exact ih h (tstep_segs_depths hstep hl)

/-- **C5.**  Whenever `Lsys.compute_coords` returns, the segment list and the
depth-label list have equal length: segments and depths are emitted 1:1, in
string-scan order, one depth per segment. -/
theorem compute_coords_lengths_eq (cfg : TConfig) (s : List Char) (draws : ℕ → ℝ) :
    (Lsys.compute_coords cfg s draws).elim True
      (fun st => st.segs.length = st.depths.length) := by
  cases h : Lsys.compute_coords cfg s draws with
  | none => exact trivial
  | some st =>
    exact runT_segs_depths h rfl

theorem tphase1_draws {cfg : TConfig} (h0 : cfg.unoise = 0) (d₁ d₂ : ℕ → ℝ)
    (st : TState) (c : Char) :
    tphase1 cfg d₁ st c = tphase1 cfg d₂ st c := by
  unfold tphase1
  rw [h0]
  simp [add_noise_zero]

theorem tphase2_draws {cfg : TConfig} (h0 : cfg.unoise = 0) (d₁ d₂ : ℕ → ℝ)
    (c : Char) (st1 : TState) (found : Bool) :
    tphase2 cfg d₁ c st1 found = tphase2 cfg d₂ c st1 found := by
  unfold tphase2
  rw [h0]
  simp [add_noise_zero]

theorem tstep_draws {cfg : TConfig} (h0 : cfg.unoise = 0) (d₁ d₂ : ℕ → ℝ)
    (st : TState) (c : Char) :
    tstep cfg d₁ st c = tstep cfg d₂ st c := by
  unfold tstep
  by_cases hd : c.isDigit = true
  · rw [if_pos hd, if_pos hd]
  · rw [if_neg hd, if_neg hd]
    simp only [tphase1_draws h0 d₁ d₂ st c, tphase2_draws h0 d₁ d₂]

theorem runT_draws {cfg : TConfig} (h0 : cfg.unoise = 0) (d₁ d₂ : ℕ → ℝ) :
    ∀ (s : List Char) (st : TState), runT cfg d₁ st s = runT cfg d₂ st s := by
  intro s
  induction s with
  | nil => intro st; rfl
  | cons c cs ih =>
    intro st
    rw [show runT cfg d₁ st (c :: cs) =
      (match tstep cfg d₁ st c with
       | none => none
       | some st1 => runT cfg d₁ st1 cs) from rfl,
      show runT cfg d₂ st (c :: cs) =
      (match tstep cfg d₂ st c with
       | none => none
       | some st1 => runT cfg d₂ st1 cs) from rfl,
      tstep_draws h0 d₁ d₂ st c]
    cases tstep cfg d₂ st c with
    | none => rfl
    | some st1 => exact ih st1

/-- **C9.**  With `unoise = 0`, `add_noise` returns exactly `0` without
consuming a sample from the random stream, and `Lsys.compute_coords` is
deterministic: two runs on equal inputs but arbitrary different random
streams return identical outputs. -/
theorem compute_coords_deterministic :
    (∀ (draws : ℕ → ℝ) (k : ℕ), add_noise 0 draws k = (0, k)) ∧
    (∀ (cfg : TConfig) (s : List Char) (d₁ d₂ : ℕ → ℝ), cfg.unoise = 0 →
      Lsys.compute_coords cfg s d₁ = Lsys.compute_coords cfg s d₂) := by
  refine ⟨add_noise_zero, ?_⟩
  intro cfg s d₁ d₂ h0
  unfold Lsys.compute_coords
  exact runT_draws h0 d₁ d₂ s (initTState cfg)

/-- **C9, witness.**  Two runs of the noise-free default configuration on
`"F+F"` with different random streams return the same output. -/
theorem compute_coords_deterministic_witness :
    Lsys.compute_coords cfgNoNoise ("F+F".toList) drawsZero =
      Lsys.compute_coords cfgNoNoise ("F+F".toList) drawsOne :=
  compute_coords_deterministic.2 cfgNoNoise ("F+F".toList) drawsZero drawsOne rfl

theorem tphase2_warn_other {cfg : TConfig} {draws : ℕ → ℝ} {c cc : Char}
    {st1 st2 : TState} {found : Bool} (hcc : c ≠ cc)
    (h : tphase2 cfg draws c st1 found = some st2) :
    st2.warnings.count cc = st1.warnings.count cc ∧
    (cc ∈ st2.ignore ↔ cc ∈ st1.ignore) := by
  unfold tphase2 at h
  split_ifs at h <;>
    first
    | · simp only [Option.some.injEq] at h
        subst h
        simp [List.count_append, List.mem_append, Ne.symm hcc]
    | · cases hst : st1.stack with
        | nil =>
          rw [hst] at h
          simp at h
        | cons hd rest =>
          obtain ⟨px, py, pa⟩ := hd
          rw [hst] at h
          simp only [Option.some.injEq] at h
          subst h
          simp

theorem tstep_warn_other {cfg : TConfig} {draws : ℕ → ℝ} {st st' : TState}
    {c cc : Char} (hcc : c ≠ cc) (h : tstep cfg draws st c = some st') :
    st'.warnings.count cc = st.warnings.count cc ∧
    (cc ∈ st'.ignore ↔ cc ∈ st.ignore) := by
  unfold tstep at h
  by_cases hd : c.isDigit = true
  · rw [if_pos hd] at h
    simp only [Option.some.injEq] at h
    subst h
    simp
  · rw [if_neg hd] at h
    simp only [Option.map_eq_some'] at h
    obtain ⟨a, ha, hfa⟩ := h
    subst hfa
    have hph1 := tphase1_warn_ignore cfg draws st c
    have hph2 := tphase2_warn_other hcc ha
    constructor
    · show a.warnings.count cc = st.warnings.count cc
      rw [hph2.1, hph1.1]
    · show cc ∈ a.ignore ↔ cc ∈ st.ignore
      rw [hph2.2, hph1.2.1]

theorem tstep_warn_self_inv0 {cfg : TConfig} {draws : ℕ → ℝ} {st st' : TState}
    {cc : Char}
    (hd : cc.isDigit = false)
    (h1 : ¬(cc = cfg.forward ∨ cc = cfg.bar ∨ cc = cfg.goto))
    (h2 : ¬(cc = cfg.right ∨ cc = cfg.left))
    (h3 : cc ≠ '[') (h4 : cc ≠ ']')
    (hin : cc ∉ st.ignore)
    (h : tstep cfg draws st cc = some st') :
    cc ∈ st'.ignore ∧ st'.warnings.count cc = st.warnings.count cc + 1 := by
  unfold tstep at h
  rw [if_neg (by simp [hd])] at h
  unfold tphase1 at h
  rw [if_neg h1] at h
  unfold tphase2 at h
  simp only [if_neg h2, if_neg h3, if_neg h4, if_neg hin, if_true] at h
  simp only [Option.map_some', Option.some.injEq] at h
  subst h
  simp [List.count_append, List.mem_append]

theorem tstep_warn_self_inv1 {cfg : TConfig} {draws : ℕ → ℝ} {st st' : TState}
    {cc : Char}
    (hd : cc.isDigit = false)
    (h1 : ¬(cc = cfg.forward ∨ cc = cfg.bar ∨ cc = cfg.goto))
    (h2 : ¬(cc = cfg.right ∨ cc = cfg.left))
    (h3 : cc ≠ '[') (h4 : cc ≠ ']')
    (hin : cc ∈ st.ignore)
    (h : tstep cfg draws st cc = some st') :
    st'.ignore = st.ignore ∧ st'.warnings = st.warnings := by
  unfold tstep at h
  rw [if_neg (by simp [hd])] at h
  unfold tphase1 at h
  rw [if_neg h1] at h
  unfold tphase2 at h
  simp only [if_neg h2, if_neg h3, if_neg h4, if_pos hin] at h
  simp only [Option.map_some', Option.some.injEq] at h
  subst h
  exact ⟨rfl, rfl⟩

theorem runT_warn {cfg : TConfig} {draws : ℕ → ℝ} {cc : Char}
    (hd : cc.isDigit = false)
    (h1 : ¬(cc = cfg.forward ∨ cc = cfg.bar ∨ cc = cfg.goto))
    (h2 : ¬(cc = cfg.right ∨ cc = cfg.left))
    (h3 : cc ≠ '[') (h4 : cc ≠ ']') :
    ∀ (s : List Char) (st st' : TState), runT cfg draws st s = some st' →
    ((cc ∈ st.ignore → st.warnings.count cc = 1 →
      cc ∈ st'.ignore ∧ st'.warnings.count cc = 1) ∧
     (cc ∉ st.ignore → st.warnings.count cc = 0 →
      ((cc ∈ s → cc ∈ st'.ignore ∧ st'.warnings.count cc = 1) ∧
       (cc ∉ s → cc ∉ st'.ignore ∧ st'.warnings.count cc = 0)))) := by
  intro s
  induction s with
  | nil =>
    intro st st' h
    rw [show runT cfg draws st [] = some st from rfl] at h
    simp only [Option.some.injEq] at h
    subst h
    refine ⟨fun a b => ⟨a, b⟩, fun a b => ⟨fun hmem => absurd hmem (by simp), fun _ => ⟨a, b⟩⟩⟩
  | cons c cs ih =>
    intro st st' h
    rw [show runT cfg draws st (c :: cs) =
      (match tstep cfg draws st c with
       | none => none
       | some st1 => runT cfg draws st1 cs) from rfl] at h
    cases hstep : tstep cfg draws st c with
    | none => rw [hstep] at h; simp at h
    | some st1 =>
      rw [hstep] at h
      constructor
      · intro hin hcount
        by_cases hc : c = cc
        · subst hc
          have hs := tstep_warn_self_inv1 hd h1 h2 h3 h4 hin hstep
          exact (ih st1 st' h).1 (hs.1 ▸ hin) (by rw [hs.2]; exact hcount)
        · have ho := tstep_warn_other hc hstep
          exact (ih st1 st' h).1 (ho.2.mpr hin) (by rw [ho.1]; exact hcount)
      · intro hin hcount
        by_cases hc : c = cc
        · subst hc
          have hs := tstep_warn_self_inv0 hd h1 h2 h3 h4 hin hstep
          have hres := (ih st1 st' h).1 hs.1 (by rw [hs.2, hcount])
          exact ⟨fun _ => hres, fun hnot => absurd (List.mem_cons_self c cs) hnot⟩
        · have ho := tstep_warn_other hc hstep
          have hres := (ih st1 st' h).2 (fun hm => hin (ho.2.mp hm)) (by rw [ho.1]; exact hcount)
          constructor
          · intro hmem
            rcases List.mem_cons.mp hmem with hmem | hmem
            · exact absurd hmem.symm hc
            · exact hres.1 hmem
          · intro hnot
            exact hres.2 (fun hm => hnot (List.mem_cons_of_mem c hm))

/-- **C8.**  During one completed run of `compute_coords`, a symbol that is
not a digit, not one of the assigned command symbols, not a bracket, and not
in the configured ignore set is warned about exactly once — at its first
occurrence — after which it is added to the ignore set; a symbol appearing
twice therefore yields one warning, not two, and a symbol not appearing is
never warned about. -/
theorem compute_coords_warn_once (cfg : TConfig) (s : List Char) (draws : ℕ → ℝ)
    (cc : Char) (st' : TState)
    (hd : cc.isDigit = false)
    (hf : cc ≠ cfg.forward) (hb : cc ≠ cfg.bar) (hg : cc ≠ cfg.goto)
    (hr : cc ≠ cfg.right) (hl : cc ≠ cfg.left)
    (hlb : cc ≠ '[') (hrb : cc ≠ ']') (hig : cc ∉ cfg.ignore)
    (h : Lsys.compute_coords cfg s draws = some st') :
    st'.warnings.count cc = (if cc ∈ s then 1 else 0) ∧
    (cc ∈ s → cc ∈ st'.ignore) := by
  have hrun := (runT_warn hd (by tauto) (by tauto) hlb hrb s (initTState cfg) st' h).2
    (by simpa [initTState] using hig) (by simp [initTState])
  by_cases hmem : cc ∈ s
  · have := hrun.1 hmem
    rw [if_pos hmem]
    exact ⟨this.2, fun _ => this.1⟩
  · have := hrun.2 hmem
    rw [if_neg hmem]
    exact ⟨this.2, fun hmem' => absurd hmem' hmem⟩

/-- **C8, witness.**  Interpreting `"ZZ"` under the default configuration:
the unrecognized symbol `'Z'` appears twice, is warned about exactly once,
and ends up in the ignore set. -/
theorem compute_coords_warn_once_witness :
    stZZ.warnings.count 'Z' = (if 'Z' ∈ ("ZZ".toList) then 1 else 0) ∧
    ('Z' ∈ ("ZZ".toList) → 'Z' ∈ stZZ.ignore) :=
  compute_coords_warn_once cfgNoNoise ("ZZ".toList) drawsZero 'Z' stZZ
    (by decide) (by decide) (by decide) (by decide) (by decide) (by decide)
    (by decide) (by decide) (by decide) rfl

theorem snap_of_eq_or_gt {v : ℝ} (h : v = 0 ∨ turtle_tol < |v|) : snap v = v := by
  unfold snap
  rcases h with h | h
  · subst h
    rw [if_neg]
    rw [abs_zero]
    norm_num [turtle_tol]
  · rw [if_pos h]

theorem snap_zero : snap 0 = 0 := snap_of_eq_or_gt (Or.inl rfl)

theorem runT_cons_some {cfg : TConfig} {draws : ℕ → ℝ} {st st1 : TState}
    {c : Char} (cs : List Char) (h : tstep cfg draws st c = some st1) :
    runT cfg draws st (c :: cs) = runT cfg draws st1 cs := by
  rw [show runT cfg draws st (c :: cs) =
    (match tstep cfg draws st c with
     | none => none
     | some s1 => runT cfg draws s1 cs) from rfl, h]

theorem tstep_turtle_F (da step ds : ℝ) (depth : ℕ) (draws : ℕ → ℝ) (st : TState) :
    tstep (turtleCfg da step ds depth) draws st 'F' =
      some { st with
        segs := st.segs ++ [Seg.draw (snap st.x, snap st.y)
          (snap (st.x + Real.cos st.a * (step * ds ^ depth)),
           snap (st.y + Real.sin st.a * (step * ds ^ depth)))],
        depths := st.depths ++ [depth],
        x := st.x + Real.cos st.a * (step * ds ^ depth),
        y := st.y + Real.sin st.a * (step * ds ^ depth),
        pres_depth := depth,
        num := 0 } := by
  have e1 : ¬(('F' : Char) = '|') := by decide
  have e2 : ¬(('F' : Char) = 'G') := by decide
  have e3 : ¬(('F' : Char) = '+') := by decide
  have e4 : ¬(('F' : Char) = '-') := by decide
  have e5 : ¬(('F' : Char) = '[') := by decide
  have e6 : ¬(('F' : Char) = ']') := by decide
  have e7 : ('F' : Char).isDigit = false := by decide
  simp [tstep, tphase1, tphase2, turtleCfg, add_noise, e1, e2, e3, e4, e5, e6, e7]

theorem tstep_turtle_plus (da step ds : ℝ) (depth : ℕ) (draws : ℕ → ℝ) (st : TState)
    (hnum : st.num = 0) :
    tstep (turtleCfg da step ds depth) draws st '+' =
      some { st with a := st.a - radians da, num := 0 } := by
  have e1 : ¬(('+' : Char) = 'F') := by decide
  have e2 : ¬(('+' : Char) = '|') := by decide
  have e3 : ¬(('+' : Char) = 'G') := by decide
  have e4 : ¬(('+' : Char) = '-') := by decide
  have e7 : ('+' : Char).isDigit = false := by decide
  simp [tstep, tphase1, tphase2, turtleCfg, add_noise, e1, e2, e3, e4, e7, hnum]

theorem runT_nil (cfg : TConfig) (draws : ℕ → ℝ) (st : TState) :
    runT cfg draws st [] = some st := rfl

/-- **C4, counterexample.**  With `step = 1e-10` (below the `1e-9` snapping
tolerance), `a0 = 0`, `unoise = 0`, `ds = 1`, the single command `"F"` emits
the segment `(0,0) → (0,0)`: the endpoint is snapped to exactly zero, not the
claimed `(step, 0)`. -/
theorem compute_coords_snap_cex :
    (Lsys.compute_coords (turtleCfg 90 (1 / 10000000000) 1 0) ("F".toList)
      drawsZero).map TState.segs = some [Seg.draw (0, 0) (0, 0)] ∧
    (Lsys.compute_coords (turtleCfg 90 (1 / 10000000000) 1 0) ("F".toList)
      drawsZero).map TState.segs ≠
      some [Seg.draw (0, 0) ((1 / 10000000000 : ℝ), 0)] := by
  have hsnap : snap ((10000000000 : ℝ)⁻¹) = 0 := by
    unfold snap turtle_tol
    rw [if_neg]
    rw [abs_of_pos (by norm_num)]
    norm_num
  have ha0 : radians 0 = 0 := by simp [radians]
  have h1 : (Lsys.compute_coords (turtleCfg 90 (1 / 10000000000) 1 0) ("F".toList)
      drawsZero).map TState.segs = some [Seg.draw (0, 0) (0, 0)] := by
    unfold Lsys.compute_coords
    rw [show ("F".toList) = ['F'] from rfl,
      runT_cons_some [] (tstep_turtle_F 90 (1 / 10000000000) 1 0 drawsZero
        (initTState (turtleCfg 90 (1 / 10000000000) 1 0))), runT_nil]
    simp [initTState, turtleCfg, ha0, snap_zero, hsnap]
  refine ⟨h1, ?_⟩
  rw [h1]
  intro h
  simp only [Option.some.injEq, List.cons.injEq, Seg.draw.injEq, Prod.mk.injEq] at h
  obtain ⟨⟨-, h0, -⟩, -⟩ := h
  norm_num at h0

/-- **C4, amended.**  With `unoise = 0`, `a0 = 0` and unit step scaling
(`ds = 1` or `depth = 0`), and provided the emitted coordinates are either
exactly zero or larger in magnitude than the `1e-9` snapping tolerance (the
amendment the snapping behavior forces), `compute_coords` on `"F"` produces
exactly one drawn segment from `(0,0)` to `(step, 0)` carrying the global
depth, and on `"F+F"` exactly two drawn segments with no pen-lift, the second
leaving `(step, 0)` in the direction rotated clockwise by `da` degrees. -/
theorem compute_coords_single_forward (da step ds : ℝ) (depth : ℕ) (draws : ℕ → ℝ)
    (hds : ds = 1 ∨ depth = 0)
    (hstep : turtle_tol < |step|)
    (hx2 : step + Real.cos (-(radians da)) * step = 0 ∨
      turtle_tol < |step + Real.cos (-(radians da)) * step|)
    (hy2 : Real.sin (-(radians da)) * step = 0 ∨
      turtle_tol < |Real.sin (-(radians da)) * step|) :
    ((Lsys.compute_coords (turtleCfg da step ds depth) ("F".toList) draws).map
      TState.segs = some [Seg.draw (0, 0) (step, 0)]) ∧
    ((Lsys.compute_coords (turtleCfg da step ds depth) ("F".toList) draws).map
      TState.depths = some [depth]) ∧
    ((Lsys.compute_coords (turtleCfg da step ds depth) ("F+F".toList) draws).map
      TState.segs = some [Seg.draw (0, 0) (step, 0),
        Seg.draw (step, 0) (step + Real.cos (-(radians da)) * step,
          Real.sin (-(radians da)) * step)]) := by
  have hpow : ds ^ depth = 1 := by
    rcases hds with h | h
    · rw [h, one_pow]
    · rw [h, pow_zero]
  have ha0 : radians 0 = 0 := by simp [radians]
  have hsnap_step : snap step = step := snap_of_eq_or_gt (Or.inr hstep)
  have hx2' : snap (step + Real.cos (radians da) * step) =
      step + Real.cos (radians da) * step := by
    apply snap_of_eq_or_gt
    rcases hx2 with h | h
    · left
      simpa [Real.cos_neg] using h
    · right
      simpa [Real.cos_neg] using h
  have hy2' : snap (-(Real.sin (radians da) * step)) =
      -(Real.sin (radians da) * step) := by
    apply snap_of_eq_or_gt
    rcases hy2 with h | h
    · left
      simpa [Real.sin_neg] using h
    · right
      simpa [Real.sin_neg] using h
  refine ⟨?_, ?_, ?_⟩
  · unfold Lsys.compute_coords
    rw [show ("F".toList) = ['F'] from rfl,
      runT_cons_some [] (tstep_turtle_F da step ds depth draws
        (initTState (turtleCfg da step ds depth))), runT_nil]
    simp [initTState, turtleCfg, ha0, hpow, snap_zero, hsnap_step]
  · unfold Lsys.compute_coords
    rw [show ("F".toList) = ['F'] from rfl,
      runT_cons_some [] (tstep_turtle_F da step ds depth draws
        (initTState (turtleCfg da step ds depth))), runT_nil]
    simp [initTState, turtleCfg]
  · unfold Lsys.compute_coords
    rw [show ("F+F".toList) = ['F', '+', 'F'] from rfl,
      runT_cons_some ['+', 'F'] (tstep_turtle_F da step ds depth draws
        (initTState (turtleCfg da step ds depth))),
      runT_cons_some ['F'] (tstep_turtle_plus da step ds depth draws _ rfl),
      runT_cons_some [] (tstep_turtle_F da step ds depth draws _), runT_nil]
    simp [initTState, turtleCfg, ha0, hpow, snap_zero, hsnap_step, hx2', hy2']

/-- **C4, witness.**  The amended statement at `da = 90`, `step = 1`,
`ds = 1`, `depth = 0`. -/
theorem compute_coords_single_forward_witness :
    ((Lsys.compute_coords (turtleCfg 90 1 1 0) ("F".toList) drawsZero).map
      TState.segs = some [Seg.draw (0, 0) ((1 : ℝ), 0)]) ∧
    ((Lsys.compute_coords (turtleCfg 90 1 1 0) ("F".toList) drawsZero).map
      TState.depths = some [0]) ∧
    ((Lsys.compute_coords (turtleCfg 90 1 1 0) ("F+F".toList) drawsZero).map
      TState.segs = some [Seg.draw (0, 0) ((1 : ℝ), 0),
        Seg.draw ((1 : ℝ), 0) ((1 : ℝ) + Real.cos (-(radians 90)) * 1,
          Real.sin (-(radians 90)) * 1)]) := by
  have hrad : radians 90 = Real.pi / 2 := by
    unfold radians
    ring
  refine compute_coords_single_forward 90 1 1 0 drawsZero (Or.inl rfl)
    (by rw [abs_one]; norm_num [turtle_tol]) ?_ ?_
  · right
    rw [Real.cos_neg, hrad, Real.cos_pi_div_two]
    norm_num [turtle_tol]
  · right
    rw [Real.sin_neg, hrad, Real.sin_pi_div_two]
    norm_num [turtle_tol]

theorem bezier_segs_one (p0 p1 p2 p3 : ℝ × ℝ) : bezier [p0, p1, p2, p3] 1 = [p0, p3] := by
  unfold bezier
  rw [show List.range 2 = [0, 1] from rfl]
  simp [List.enum, List.enumFrom, poly, binomial]

theorem sqrt_four : Real.sqrt 4 = 2 := by
  rw [show (4 : ℝ) = 2 ^ 2 by norm_num, Real.sqrt_sq (by norm_num : (0 : ℝ) ≤ 2)]

theorem sqrt_nine : Real.sqrt 9 = 3 := by
  rw [show (9 : ℝ) = 3 ^ 2 by norm_num, Real.sqrt_sq (by norm_num : (0 : ℝ) ≤ 3)]

theorem maxList_pair (x y : ℝ) : maxList [x, y] = max x y := by
  rw [show maxList [x, y] = List.foldl max x [y] from rfl, List.foldl_cons, List.foldl_nil]

theorem minList_pair (x y : ℝ) : minList [x, y] = min x y := by
  rw [show minList [x, y] = List.foldl min x [y] from rfl, List.foldl_cons, List.foldl_nil]

theorem yieldA_eval :
    gen_new_guess_yield (0, 1) (0, 2) (0, 0) 0 3 1 (1 / 2) 1 0 =
      ⟨1 / 2, [-2, -1], -1, 1, 0⟩ := by
  simp only [gen_new_guess_yield]
  rw [bezier_segs_one]
  have hcurve : radial_errors [((0 : ℝ), (1 : ℝ)), ((0 : ℝ), (2 : ℝ))] 0 3 = [-2, -1] := by
    unfold radial_errors
    rw [List.map_cons, List.map_cons, List.map_nil]
    norm_num [Real.sqrt_one, sqrt_four]
  rw [hcurve]
  have hmax : maxList [(-2 : ℝ), -1] = -1 := by
    rw [maxList_pair]
    exact max_eq_right (by norm_num)
  have hmin : minList [(-2 : ℝ), -1] = -2 := by
    rw [minList_pair]
    exact min_eq_left (by norm_num)
  rw [hmax, hmin]
  norm_num [GuessStep.mk.injEq, abs_neg, abs_one, abs_two]

theorem yieldB_eval :
    gen_new_guess_yield (0, 2) (0, 3) (0, 0) 0 1 1 (1 / 2) 1 0 =
      ⟨1 / 2, [1, 2], 1, 1, 0⟩ := by
  simp only [gen_new_guess_yield]
  rw [bezier_segs_one]
  have hcurve : radial_errors [((0 : ℝ), (2 : ℝ)), ((0 : ℝ), (3 : ℝ))] 0 1 = [1, 2] := by
    unfold radial_errors
    rw [List.map_cons, List.map_cons, List.map_nil]
    norm_num [sqrt_four, sqrt_nine]
  rw [hcurve]
  have hmax : maxList [(1 : ℝ), 2] = 2 := by
    rw [maxList_pair]
    exact max_eq_right (by norm_num)
  have hmin : minList [(1 : ℝ), 2] = 1 := by
    rw [minList_pair]
    exact min_eq_left (by norm_num)
  rw [hmax, hmin]
  norm_num [GuessStep.mk.injEq, abs_one, abs_two]

theorem spec_metric_A : spec_error_metric [(-2 : ℝ), -1] = 1 := by
  unfold spec_error_metric
  rw [List.map_cons, List.map_cons, List.map_nil,
    show |(-2 : ℝ)| = 2 from by rw [abs_neg]; exact abs_of_pos (by norm_num),
    show |(-1 : ℝ)| = 1 from by rw [abs_neg, abs_one],
    maxList_pair, minList_pair, max_eq_left (by norm_num),
    min_eq_right (by norm_num)]
  norm_num

theorem spec_metric_B : spec_error_metric [(1 : ℝ), 2] = 1 := by
  unfold spec_error_metric
  rw [List.map_cons, List.map_cons, List.map_nil, abs_one,
    show |(2 : ℝ)| = 2 from abs_of_pos (by norm_num),
    maxList_pair, minList_pair, max_eq_right (by norm_num),
    min_eq_left (by norm_num)]
  norm_num

/-- **C6, counterexample.**  Two concrete calls of `gen_new_guess`.
First (all sampled points inside the circle: points `(0,1)`, `(0,2)`,
center the origin, radius 3, one segment, so the signed deviations are
`[-2, -1]`): the yielded error is `-1`, whereas the metric the claim states —
`max|e| - min|e|` — equals `1`; the code's metric is `|max e| - |min e|`,
which differs.  Second (all points outside: radius 1, deviations `[1, 2]`):
the claim's metric is positive, yet the lower bound `b` of the bisection
interval does not move up to the guess — the upper bound `a` moves down
(update `(1/4, 1/2, 0)`), refuting the claimed update direction. -/
theorem gen_new_guess_metric_cex :
    (gen_new_guess_yield (0, 1) (0, 2) (0, 0) 0 3 1 (1 / 2) 1 0).error = -1 ∧
    spec_error_metric (gen_new_guess_yield (0, 1) (0, 2) (0, 0) 0 3 1 (1 / 2) 1 0).error_np = 1 ∧
    (gen_new_guess_yield (0, 1) (0, 2) (0, 0) 0 3 1 (1 / 2) 1 0).error ≠
      spec_error_metric (gen_new_guess_yield (0, 1) (0, 2) (0, 0) 0 3 1 (1 / 2) 1 0).error_np ∧
    0 < spec_error_metric (gen_new_guess_yield (0, 2) (0, 3) (0, 0) 0 1 1 (1 / 2) 1 0).error_np ∧
    gen_new_guess_update (gen_new_guess_yield (0, 2) (0, 3) (0, 0) 0 1 1 (1 / 2) 1 0) =
      (1 / 4, 1 / 2, 0) ∧
    (gen_new_guess_update (gen_new_guess_yield (0, 2) (0, 3) (0, 0) 0 1 1 (1 / 2) 1 0)).2.2 ≠
      (gen_new_guess_yield (0, 2) (0, 3) (0, 0) 0 1 1 (1 / 2) 1 0).guess := by
  rw [yieldA_eval, yieldB_eval]
  refine ⟨rfl, ?_, ?_, ?_, ?_, ?_⟩
  · exact spec_metric_A
  · rw [spec_metric_A]
    norm_num
  · rw [show (GuessStep.mk (1 / 2) [1, 2] 1 1 0).error_np = [(1 : ℝ), 2] from rfl,
      spec_metric_B]
    norm_num
  · unfold gen_new_guess_update
    rw [if_pos (by norm_num : (GuessStep.mk (1 / 2) [(1 : ℝ), 2] 1 1 0).error > 0)]
    norm_num
  · unfold gen_new_guess_update
    rw [if_pos (by norm_num : (GuessStep.mk (1 / 2) [(1 : ℝ), 2] 1 1 0).error > 0)]
    norm_num

theorem fcw_loop_stop (pt0 pt2 ptm : ℝ × ℝ) (kc r : ℝ) (segs : ℕ) (tol : ℝ) :
    ∀ (fuel : ℕ) (guess a b : ℝ) (i : ℕ), 1 ≤ fuel →
    ((-tol < (fcw_loop pt0 pt2 ptm kc r segs tol guess a b i fuel).2.2.1 ∧
      (fcw_loop pt0 pt2 ptm kc r segs tol guess a b i fuel).2.2.1 < tol) ∨
     (fcw_loop pt0 pt2 ptm kc r segs tol guess a b i fuel).2.2.2 = i + (fuel - 1)) := by
  intro fuel
  induction fuel with
  | zero => intro _ _ _ _ h; exact absurd h (by omega)
  | succ f ih =>
    intro guess a b i _
    rw [show fcw_loop pt0 pt2 ptm kc r segs tol guess a b i (f + 1) =
      (let y := gen_new_guess_yield pt0 pt2 ptm kc r segs guess a b
       if (-tol < y.error ∧ y.error < tol) ∨ f = 0 then
         (y.guess, y.error_np, y.error, i)
       else
         let s := gen_new_guess_update y
         fcw_loop pt0 pt2 ptm kc r segs tol s.1 s.2.1 s.2.2 (i + 1) f) from rfl]
    by_cases hc : (-tol < (gen_new_guess_yield pt0 pt2 ptm kc r segs guess a b).error ∧
        (gen_new_guess_yield pt0 pt2 ptm kc r segs guess a b).error < tol) ∨ f = 0
    · rw [if_pos hc]
      rcases hc with hc | hc
      · exact Or.inl hc
      · subst hc
        right
        rfl
    · rw [if_neg hc]
      push_neg at hc
      have hf : 1 ≤ f := by omega
      rcases ih (gen_new_guess_update (gen_new_guess_yield pt0 pt2 ptm kc r segs guess a b)).1
        (gen_new_guess_update (gen_new_guess_yield pt0 pt2 ptm kc r segs guess a b)).2.1
        (gen_new_guess_update (gen_new_guess_yield pt0 pt2 ptm kc r segs guess a b)).2.2
        (i + 1) hf with h | h
      · exact Or.inl h
      · right
        rw [h]
        omega

theorem fcw_loop_stop0 (pt0 pt2 ptm : ℝ × ℝ) (kc r : ℝ) (segs : ℕ) (tol : ℝ)
    (fuel : ℕ) (guess a b : ℝ) (h : 1 ≤ fuel) :
    ((-tol < (fcw_loop pt0 pt2 ptm kc r segs tol guess a b 0 fuel).2.2.1 ∧
      (fcw_loop pt0 pt2 ptm kc r segs tol guess a b 0 fuel).2.2.1 < tol) ∨
     (fcw_loop pt0 pt2 ptm kc r segs tol guess a b 0 fuel).2.2.2 = fuel - 1) := by
  rcases fcw_loop_stop pt0 pt2 ptm kc r segs tol fuel guess a b 0 h with hh | hh
  · exact Or.inl hh
  · right
    rw [hh]
    omega

/-- **C6, amended.**  The bisection driven by `gen_new_guess`: the per-
iteration signed deviations are `radial distance − radius` over the sampled
curve points and the per-iteration error is `|max(e)| − |min(e)|` (the
absolute values are taken *after* the max/min, not before as the claim
states); when the error is positive the *upper* bound `a` moves *down* to
the current guess, otherwise the *lower* bound `b` moves *up* to the guess,
the next guess is the midpoint of the updated bounds and stays within the
previous bounds; the search stops when the error lies strictly within
`±tol`, or with the last iteration index once the `max_iters` budget is
exhausted. -/
theorem gen_new_guess_bisection_spec :
    (∀ (pt0 pt2 ptm : ℝ × ℝ) (kc r : ℝ) (segs : ℕ) (guess a b : ℝ),
      (gen_new_guess_yield pt0 pt2 ptm kc r segs guess a b).error_np =
        radial_errors
          (bezier [pt0, ctrl_pts pt0 ptm guess, ctrl_pts pt2 ptm guess, pt2] segs) kc r ∧
      (gen_new_guess_yield pt0 pt2 ptm kc r segs guess a b).error =
        |maxList ((gen_new_guess_yield pt0 pt2 ptm kc r segs guess a b).error_np)| -
        |minList ((gen_new_guess_yield pt0 pt2 ptm kc r segs guess a b).error_np)|) ∧
    (∀ (pt0 pt2 ptm : ℝ × ℝ) (kc r : ℝ) (segs : ℕ) (guess a b : ℝ),
      (0 < (gen_new_guess_yield pt0 pt2 ptm kc r segs guess a b).error →
        gen_new_guess_update (gen_new_guess_yield pt0 pt2 ptm kc r segs guess a b) =
          ((guess + b) / 2, guess, b)) ∧
      (¬ 0 < (gen_new_guess_yield pt0 pt2 ptm kc r segs guess a b).error →
        gen_new_guess_update (gen_new_guess_yield pt0 pt2 ptm kc r segs guess a b) =
          ((a + guess) / 2, a, guess))) ∧
    (∀ y : GuessStep, y.b ≤ y.guess → y.guess ≤ y.a →
      y.b ≤ (gen_new_guess_update y).2.2 ∧ (gen_new_guess_update y).2.1 ≤ y.a ∧
      (gen_new_guess_update y).2.2 ≤ (gen_new_guess_update y).1 ∧
      (gen_new_guess_update y).1 ≤ (gen_new_guess_update y).2.1) ∧
    (∀ (angle guess tol r : ℝ) (segs max_iters : ℕ),
      0 < angle → angle < 180 → 0 < guess → guess < 1 → 1 ≤ max_iters →
      ∃ g e_np e i, find_circular_weight angle guess tol max_iters r segs =
        Except.ok (g, e_np, e, i) ∧
        ((-tol < e ∧ e < tol) ∨ i = max_iters - 1)) := by
  refine ⟨?_, ?_, ?_, ?_⟩
  · intro pt0 pt2 ptm kc r segs guess a b
    exact ⟨rfl, rfl⟩
  · intro pt0 pt2 ptm kc r segs guess a b
    constructor
    · intro hpos
      unfold gen_new_guess_update
      rw [if_pos hpos]
      rfl
    · intro hpos
      unfold gen_new_guess_update
      rw [if_neg hpos]
      rfl
  · intro y hb ha
    unfold gen_new_guess_update
    by_cases hpos : y.error > 0
    · rw [if_pos hpos]
      refine ⟨le_refl _, ha, ?_, ?_⟩
      · show y.b ≤ (y.guess + y.b) / 2
        linarith
      · show (y.guess + y.b) / 2 ≤ y.guess
        linarith
    · rw [if_neg hpos]
      refine ⟨hb, le_refl _, ?_, ?_⟩
      · show y.guess ≤ (y.a + y.guess) / 2
        linarith
      · show (y.a + y.guess) / 2 ≤ y.a
        linarith
  · intro angle guess tol r segs max_iters h1 h2 h3 h4 h5
    unfold find_circular_weight
    rw [if_neg (not_not_intro ⟨h1, h2⟩), if_neg (not_not_intro ⟨h3, h4⟩)]
    refine ⟨_, _, _, _, rfl, ?_⟩
    exact fcw_loop_stop0 _ _ _ _ _ _ _ max_iters guess 1 0 h5

/-- **C6, witness.**  The amended statement exercised at concrete inputs: at
the all-outside configuration the error is positive and the update moves the
upper bound down to the guess; and a valid `find_circular_weight` call
(angle 90, one iteration) returns with the budget exhausted or within
tolerance. -/
theorem gen_new_guess_bisection_spec_witness :
    gen_new_guess_update (gen_new_guess_yield (0, 2) (0, 3) (0, 0) 0 1 1 (1 / 2) 1 0) =
      ((1 / 2 + 0) / 2, 1 / 2, 0) ∧
    (∃ g e_np e i, find_circular_weight 90 (1 / 2) (1 / 1000000000) 1 10 100 =
      Except.ok (g, e_np, e, i) ∧
      ((-(1 / 1000000000) < e ∧ e < 1 / 1000000000) ∨ i = 1 - 1)) :=
  ⟨(gen_new_guess_bisection_spec.2.1 (0, 2) (0, 3) (0, 0) 0 1 1 (1 / 2) 1 0).1
      (by rw [yieldB_eval]; norm_num),
    gen_new_guess_bisection_spec.2.2.2 90 (1 / 2) (1 / 1000000000) 10 100 1
      (by norm_num) (by norm_num) (by norm_num) (by norm_num) (by norm_num)⟩
